import Mathlib

/-!
# Verification of SubHunter (Certificate Transparency subdomain enumerator)

Shallow embedding of `main.go` of the SubHunter repository.  Go strings are
modeled as lists of characters (`Str`); the inputs relevant to the claims are
ASCII, where Go's byte-oriented `len`/indexing coincides with character
counting.  Network effects are modeled by explicit oracles describing the
outcome of each HTTP attempt, and the Go map used for deduplication is
modeled as a sorted duplicate-free list maintained by ordered insertion.
-/

namespace SubHunter

/-- Go strings, modeled as lists of characters. -/
abbrev Str := List Char

/-- Convenience conversion for writing concrete test strings. -/
def str (s : String) : Str := s.toList

/-- Model of `strings.Split(s, sep)` for a one-character separator: accumulator-based
splitter.  `acc` holds the current field, reversed. -/
def splitOnCharAux (sep : Char) : Str → Str → List Str
  | [], acc => [acc.reverse]
  | c :: cs, acc =>
    if c = sep then acc.reverse :: splitOnCharAux sep cs []
    else splitOnCharAux sep cs (c :: acc)

/-- Model of `strings.Split(s, string(sep))`.  On the empty string it returns `[[]]`,
matching Go. -/
def splitOnChar (sep : Char) (s : Str) : List Str := splitOnCharAux sep s []

/-- Model of `strings.TrimPrefix(s, "*.")`: removes one leading `*.` if present. -/
def trimPrefixStar : Str → Str
  | a :: b :: rest => if a = '*' && b = '.' then rest else a :: b :: rest
  | s => s

/-- Model of `(s *SubHunter) isValidSubdomain` from `main.go`: rejects the empty
string and strings longer than 253 characters, then strips one leading
wildcard label and requires every dot-separated label to have length 1–63.
The label loop performs no character-class checks. -/
def isValidSubdomain (subdomain : Str) : Bool :=
  if subdomain.length = 0 || subdomain.length > 253 then false
  else
    (splitOnChar '.' (trimPrefixStar subdomain)).all
      fun part => !(part.length = 0 || part.length > 63)

/-- A 63-character label. -/
def label63 : Str := List.replicate 63 'a'

/-- A 252-character domain made of labels of lengths 63, 63, 63, 60. -/
def dom252 : Str := label63 ++ '.' :: label63 ++ '.' :: label63 ++ '.' :: List.replicate 60 'a'

/-! ## The extraction regular expression

`extractSubdomains` compiles the Go regexp

  `(?i)\b(?:[a-z0-9](?:[a-z0-9-]{0,61}[a-z0-9])?\.)*` ++ QuoteMeta(domain) ++ `\b`

and calls `FindAllString(entry, -1)`.  Go's regexp package produces
leftmost-first (Perl-style backtracking preference) matches, with greedy
`*`, `?` and `{0,61}`.  The matcher below implements exactly that search
order: at each start position satisfying `\b`, the star tries label
candidates longest-first, backtracking into the literal domain, whose end
must lie on a `\b` word boundary. -/

/-- RE2 `\b` word characters: ASCII `[0-9A-Za-z_]`. -/
def isWordChar (c : Char) : Bool := c.isAlphanum || c = '_'

/-- Word-character test on an optional character (string edges count as
non-word). -/
def wordOpt : Option Char → Bool
  | none => false
  | some c => isWordChar c

/-- The `\b` test: exactly one side of the position is a word character. -/
def boundaryB (a b : Option Char) : Bool := wordOpt a != wordOpt b

/-- The class `(?i)[a-z0-9]`: an ASCII letter (either case) or digit. -/
def alnumCI (c : Char) : Bool :=
  ('a' ≤ c && c ≤ 'z') || ('A' ≤ c && c ≤ 'Z') || ('0' ≤ c && c ≤ '9')

/-- The class `(?i)[a-z0-9-]`. -/
def alnumDashCI (c : Char) : Bool := alnumCI c || c = '-'

/-- Case-insensitive character comparison (ASCII folding, as the matched
hostnames are ASCII). -/
def ciEq (a b : Char) : Bool := a.toLower = b.toLower

/-- Length of the longest leading run of `[a-z0-9-]` characters. -/
def runLen : Str → Nat
  | [] => 0
  | c :: cs => if alnumDashCI c then runLen cs + 1 else 0

/-- The list `[n, n-1, ..., 1]`: candidate lengths in greedy (descending) order. -/
def descRange : Nat → List Nat
  | 0 => []
  | n + 1 => (n + 1) :: descRange n

/-- The character at position `n - 1` exists and is `(?i)[a-z0-9]` — the
label subpattern requires its last character to be alphanumeric. -/
def labelShapeAt (s : Str) (n : Nat) : Bool :=
  match s[n - 1]? with
  | some c => alnumCI c
  | none => false

/-- All lengths a greedy match of `[a-z0-9](?:[a-z0-9-]{0,61}[a-z0-9])?` can
take at the start of `s`, in the order a backtracking engine tries them
(longest first, down to the single mandatory character). -/
def labelCandidates (s : Str) : List Nat :=
  match s with
  | [] => []
  | c :: _ =>
    if alnumCI c then (descRange (min 63 (runLen s))).filter (labelShapeAt s)
    else []

/-- Case-insensitive literal prefix match of the quoted domain. -/
def matchLit : Str → Str → Bool
  | [], _ => true
  | _ :: _, [] => false
  | p :: ps, c :: cs => ciEq c p && matchLit ps cs

/-- Try the literal domain at the current position, then the trailing `\b`.
`prev` is the character just before the position (needed only when the
domain is empty). -/
def matchDHere (d : Str) (prev : Option Char) (s : Str) : Option Nat :=
  if matchLit d s then
    if boundaryB (if d.length = 0 then prev else s[d.length - 1]?)
        (s.drop d.length).head? then some d.length
    else none
  else none

/-- Backtracking match of `(?:LABEL\.)*DOMAIN\b` at the start of `s`,
returning the number of characters consumed by the preferred (greedy,
leftmost-first) match.  `fuel` bounds the recursion; `fuel > s.length`
always suffices because every star iteration consumes at least two
characters. -/
def matchTailF (d : Str) : Nat → Option Char → Str → Option Nat
  | 0, _, _ => none
  | fuel + 1, prev, s =>
    match (labelCandidates s).findSome? (fun n =>
        if s[n]? = some '.' then
          (matchTailF d fuel (some '.') (s.drop (n + 1))).map (fun t => n + 1 + t)
        else none) with
    | some r => some r
    | none => matchDHere d prev s

/-- The matcher `matchTailF` with adequate fuel. -/
def matchTail (d : Str) (prev : Option Char) (s : Str) : Option Nat :=
  matchTailF d (s.length + 1) prev s

/-- One pass of `FindAllString`: at each position (left to right) require
the leading `\b`, then attempt the pattern; on a match emit it and resume
after its end (advancing one character after an empty match, as Go does).
`prev` is the character before the current position. -/
def scanF (d : Str) : Nat → Option Char → Str → List Str
  | 0, _, _ => []
  | fuel + 1, prev, s =>
    (if boundaryB prev s.head? then matchTail d prev s else none).elim
      (match s with
        | [] => []
        | c :: rest => scanF d fuel (some c) rest)
      (fun n =>
        if n = 0 then
          match s with
          | [] => [[]]
          | c :: rest => [] :: scanF d fuel (some c) rest
        else (s.take n) :: scanF d fuel s[n - 1]? (s.drop n))

/-- Model of `pattern.FindAllString(s, -1)` for the subdomain pattern built from
domain `d`. -/
def findAll (d s : Str) : List Str := scanF d (s.length + 1) none s

/-! ## Normalization, dedup and the extractor -/

/-- Go `unicode.IsSpace` on the characters relevant here (ASCII whitespace
plus NEL and NBSP), as used by `strings.TrimSpace`. -/
def isSpaceGo (c : Char) : Bool :=
  c = ' ' || c = '\t' || c = '\n' || c = Char.ofNat 11 || c = Char.ofNat 12 ||
    c = '\r' || c = Char.ofNat 133 || c = Char.ofNat 160

/-- Model of `strings.TrimSpace`. -/
def trimSpace (s : Str) : Str :=
  ((s.dropWhile isSpaceGo).reverse.dropWhile isSpaceGo).reverse

/-- Per-match normalization in `extractSubdomains`:
`strings.TrimPrefix(strings.ToLower(strings.TrimSpace(match)), "*.")`. -/
def normalizeMatch (m : Str) : Str :=
  trimPrefixStar ((trimSpace m).map Char.toLower)

/-- Model of `strings.HasPrefix` (first argument: the candidate prefix). -/
def hasPrefixStr : Str → Str → Bool
  | [], _ => true
  | _ :: _, [] => false
  | a :: as, b :: bs => a = b && hasPrefixStr as bs

/-- Model of `strings.Contains(hay, needle)`. -/
def containsStr (hay needle : Str) : Bool :=
  match hay with
  | [] => hasPrefixStr needle []
  | c :: t => hasPrefixStr needle (c :: t) || containsStr t needle

/-- The filter applied to each normalized match:
`s.isValidSubdomain(subdomain) && strings.Contains(subdomain, domain)`. -/
def keepCandidate (domain w : Str) : Bool :=
  isValidSubdomain w && containsStr w domain

/-- Strict lexicographic order on strings (Go's `sort.Strings` order; for
valid UTF-8 byte order and code-point order coincide). -/
def lexLt : Str → Str → Bool
  | [], [] => false
  | [], _ :: _ => true
  | _ :: _, [] => false
  | a :: as, b :: bs => if a < b then true else if b < a then false else lexLt as bs

/-- Ordered duplicate-free insertion: the model of inserting a key into a Go
`map[string]bool` whose key set is read off in sorted order. -/
def insertSet (w : Str) : List Str → List Str
  | [] => [w]
  | x :: xs =>
    if lexLt w x then w :: x :: xs
    else if w = x then x :: xs
    else x :: insertSet w xs

/-- Collect a list of strings into a sorted duplicate-free list: the model
of filling a `map[string]bool` and then sorting its key set. -/
def sortDedup (l : List Str) : List Str := l.foldl (fun acc w => insertSet w acc) []

/-- Model of `(s *SubHunter) extractSubdomains` from `main.go`: split every
`name_value` on newlines, find all pattern matches in each line, normalize
each match, keep it if it is a valid subdomain containing the target
domain, dedup into a set and return the sorted result. -/
def extractSubdomains (domain : Str) (nameValues : List Str) : List Str :=
  sortDedup
    ((((nameValues.flatMap (splitOnChar '\n')).flatMap (findAll domain)).map
        normalizeMatch).filter (keepCandidate domain))

/-! ## The resilient fetcher (`queryAPI`)

Network effects are modeled by an oracle assigning to each attempt number
the outcome of that attempt's HTTP interaction.  The retry loop itself is
translated directly from `queryAPI` in `main.go`; the run result is
instrumented with the number of loop iterations entered and the list of
backoff sleep durations (in seconds) performed. -/

/-- Go's `(value, error)` pair, exactly one of which is meaningful. -/
inductive Res (ε α : Type) where
  | error (e : ε)
  | ok (a : α)
  deriving DecidableEq

/-- Model of `CRTResponse` with its `name_value` field. -/
structure CRTRec where
  nameValue : Str
  deriving DecidableEq

/-- The observable outcome the network gives one attempt: a request
construction error, a transport error from `client.Do`, or a response with
a status code, a body-read result, and the result `json.Unmarshal` would
produce on that body. -/
inductive AttemptOutcome where
  | newRequestError (e : Str)
  | doError (e : Str)
  | resp (status : Nat) (readResult : Res Str Str) (parseResult : Res Str (List CRTRec))

/-- How one loop iteration of `queryAPI` acts on an outcome: return
immediately with an error (`http.NewRequest` failure), record the error and
continue, or succeed with the extracted `name_value` fields. -/
inductive StepOut where
  | immediate (e : Str)
  | failure (e : Str)
  | success (nameValues : List Str)
  deriving DecidableEq

/-- The error `fmt.Errorf("HTTP %d", resp.StatusCode)`. -/
def httpErrMsg (status : Nat) : Str := str "HTTP " ++ (toString status).toList

/-- The error `fmt.Errorf("API returned HTML instead of JSON")`. -/
def htmlErrMsg : Str := str "API returned HTML instead of JSON"

/-- The error `fmt.Errorf("JSON decode failed: %v", err)`. -/
def jsonErrMsg (e : Str) : Str := str "JSON decode failed: " ++ e

/-- The error `fmt.Errorf("max retries exceeded: %v", lastErr)`. -/
def wrapErrMsg (e : Str) : Str := str "max retries exceeded: " ++ e

/-- The classification cascade of one attempt in `queryAPI`: non-200 status,
body read error, HTML-looking body (trimmed body starts with `<`), JSON
decode failure, and finally success. -/
def stepOutcome : AttemptOutcome → StepOut
  | .newRequestError e => .immediate e
  | .doError e => .failure e
  | .resp status readRes parseRes =>
    if status ≠ 200 then .failure (httpErrMsg status)
    else match readRes with
      | .error e => .failure e
      | .ok body =>
        if hasPrefixStr (str "<") (trimSpace body) then .failure htmlErrMsg
        else match parseRes with
          | .error e => .failure (jsonErrMsg e)
          | .ok results => .success (results.map CRTRec.nameValue)

/-- The instrumented result of a `queryAPI` call: the returned value or
error, the number of loop iterations entered, and the backoff sleeps
performed (in seconds, in order). -/
structure RunResult where
  result : Res Str (List Str)
  attempts : Nat
  sleeps : List Nat
  deriving DecidableEq

/-- The retry loop of `queryAPI`: `for attempt := 1; attempt <= maxRetries;
attempt++`, sleeping `attempt` seconds before every attempt after the
first, classifying each outcome, and wrapping the last recorded error when
the loop exhausts. -/
def queryLoop (domain : Str) (oracle : Nat → AttemptOutcome) :
    Nat → Nat → Str → RunResult
  | 0, _, lastErr => ⟨.error (wrapErrMsg lastErr), 0, []⟩
  | remaining + 1, attempt, lastErr =>
    let sl : List Nat := if attempt > 1 then [attempt] else []
    match stepOutcome (oracle attempt) with
    | .immediate e => ⟨.error e, 1, sl⟩
    | .success nvs => ⟨.ok (extractSubdomains domain nvs), 1, sl⟩
    | .failure e =>
      let r := queryLoop domain oracle remaining (attempt + 1) e
      ⟨r.result, r.attempts + 1, sl ++ r.sleeps⟩

/-- The `maxRetries` value set by `NewSubHunter`. -/
def maxRetries : Nat := 3

/-- Model of `(s *SubHunter) queryAPI` under an attempt-outcome oracle. -/
def queryAPI (domain : Str) (oracle : Nat → AttemptOutcome) : RunResult :=
  queryLoop domain oracle maxRetries 1 []

/-- The oracle's outcome at an attempt is recorded-and-continue. -/
def isFailStep (o : AttemptOutcome) : Prop := ∃ e, stepOutcome o = .failure e

/-- The oracle whose every attempt fails with a transport error. -/
def oracleAllFail : Nat → AttemptOutcome := fun _ => .doError (str "connection refused")

/-- An oracle that fails once with a transport error, then answers with a
parse-clean 200 response. -/
def oracleFailThenOk : Nat → AttemptOutcome := fun n =>
  if n = 1 then .doError (str "timeout")
  else .resp 200 (.ok (str "[]")) (.ok [CRTRec.mk (str "a.example.com")])

/-- An oracle whose every response is a 201 status with a well-formed JSON
array body. -/
def oracle201 : Nat → AttemptOutcome := fun _ => .resp 201 (.ok (str "[]")) (.ok [])

/-- An oracle answering a 200-status HTML error page on every attempt. -/
def oracleHtml : Nat → AttemptOutcome :=
  fun _ => .resp 200 (.ok (str " <html>error</html>")) (.ok [])

/-! ## Order theory for the sorted-set model -/

/-- The order `lexLt` as a relation. -/
def ltB (a b : Str) : Prop := lexLt a b = true

/-! ## Domain processor and batch orchestrator

`processDomain` is parameterized by `fetch`, the per-domain outcome of the
whole `queryAPI` pipeline (the claims about the orchestrator fix the
per-domain result sets).  The shared `totalFound` counter is threaded
explicitly; the Go map `allSubdomains` is the sorted duplicate-free
accumulator, and the completion order of concurrent workers is an arbitrary
permutation `sched` of the domain list. -/

/-- Model of `(s *SubHunter) processDomain`: trim and lowercase the domain, skip it
if empty, fetch, drop the result on error, and otherwise add the count to
the running `totalFound`.  Returns the per-domain subdomain list and the
updated counter. -/
def processDomain (fetch : Str → Res Str (List Str)) (domain : Str)
    (total : Nat) : List Str × Nat :=
  let d := (trimSpace domain).map Char.toLower
  if d = [] then ([], total)
  else match fetch d with
    | .error _ => ([], total)
    | .ok subs => (subs, total + subs.length)

/-- Processing loop over a list of domains: process each, merge its results
into the shared set. -/
def batchLoop (fetch : Str → Res Str (List Str)) :
    List Str → Nat → List Str → List Str × Nat
  | [], total, acc => (acc, total)
  | dm :: rest, total, acc =>
    let r := processDomain fetch dm total
    batchLoop fetch rest r.2 (r.1.foldl (fun a w => insertSet w a) acc)

/-- Reading the domain list: trim each line and skip empty lines. -/
def domainsOfLines (lines : List Str) : List Str :=
  (lines.map trimSpace).filter (fun l => !l.isEmpty)

/-- Model of `(s *SubHunter) processDomainsFromFile`: load the domains, process them
(sequentially, or — when concurrent mode is on and there is more than one
domain — in the completion order `sched` chosen by the scheduler, with each
worker's merge into `allSubdomains` atomic under the mutex), then produce
the sorted deduplicated result and overwrite `totalFound` with its size.
Returns the result list and the final `totalFound`. -/
def processDomainsFromFile (fetch : Str → Res Str (List Str))
    (lines : List Str) (concurrent : Bool) (sched : List Str → List Str) :
    List Str × Nat :=
  let domains := domainsOfLines lines
  let order := if concurrent && decide (domains.length > 1) then sched domains
    else domains
  let r := batchLoop fetch order 0 []
  (r.1, r.1.length)

/-! ## The concurrent worker pool

In concurrent mode `processDomainsFromFile` starts one goroutine per domain
and gates their fetching with `semaphore := make(chan struct{}, s.concurrency)`:
each worker sends a token before calling `processDomain` and receives it
back afterwards.  A send on a buffered channel blocks while the buffer is
full, so the channel is a counting semaphore of capacity `s.concurrency`.
The transition system below embeds exactly this protocol; an interleaving
of the workers is a path in the system. -/

/-- The phase of one worker goroutine: not yet past the semaphore send,
fetching (token held), or finished (token returned). -/
inductive TaskPhase where
  | pending
  | inflight
  | finished
  deriving DecidableEq

/-- Whether a worker currently holds a semaphore token (is fetching). -/
def isInflight : TaskPhase → Bool
  | .inflight => true
  | _ => false

/-- Number of fetches currently in flight. -/
def inflightCount (l : List TaskPhase) : Nat := l.countP isInflight

/-- One scheduler step: worker `i` completes its semaphore send (possible
only while fewer than `cap` tokens are out), or worker `i` finishes its
fetch and returns its token. -/
inductive PoolStep (cap : Nat) : List TaskPhase → List TaskPhase → Prop
  | acquire (l : List TaskPhase) (i : Nat) :
      l[i]? = some .pending → inflightCount l < cap →
      PoolStep cap l (l.set i .inflight)
  | release (l : List TaskPhase) (i : Nat) :
      l[i]? = some .inflight →
      PoolStep cap l (l.set i .finished)

/-- States reachable by `n` workers gated by a capacity-`cap` semaphore,
starting with every worker before its send. -/
inductive PoolReachable (cap n : Nat) : List TaskPhase → Prop
  | init : PoolReachable cap n (List.replicate n .pending)
  | step (s t : List TaskPhase) :
      PoolReachable cap n s → PoolStep cap s t → PoolReachable cap n t

/-- A character is an ASCII uppercase letter iff its code is in `[65, 90]`. -/
def UpperN (c : Char) : Prop := 65 ≤ c.toNat ∧ c.toNat ≤ 90

/-! ## Shape of regexp matches -/

/-- Pointwise case-insensitive equality of equal-length strings. -/
def ciEqStr : Str → Str → Bool
  | [], [] => true
  | a :: as, b :: bs => ciEq a b && ciEqStr as bs
  | _, _ => false

/-- The shape of one `(?i)[a-z0-9](?:[a-z0-9-]{0,61}[a-z0-9])?` match:
1–63 characters from `(?i)[a-z0-9-]`, first and last from `(?i)[a-z0-9]`. -/
def LabelShapeP (lab : Str) : Prop :=
  lab ≠ [] ∧ lab.length ≤ 63 ∧ (∀ c ∈ lab, alnumDashCI c = true) ∧
    (∀ c, lab.head? = some c → alnumCI c = true) ∧
    (∀ c, lab.getLast? = some c → alnumCI c = true)

/-- The shape of a full pattern match: zero or more dot-terminated labels
followed by a case-insensitive copy of the domain. -/
inductive ChainShape (d : Str) : Str → Prop
  | base (t : Str) : ciEqStr t d = true → ChainShape d t
  | cons (lab rest : Str) : LabelShapeP lab → ChainShape d rest →
      ChainShape d (lab ++ '.' :: rest)

/-- The lowercase image of a full match: labels followed by the (lowercase)
domain itself. -/
inductive LowChain (d : Str) : Str → Prop
  | base : LowChain d d
  | cons (lab rest : Str) : LabelShapeP lab → LowChain d rest →
      LowChain d (lab ++ '.' :: rest)

/-! ## Structure of normalized matches -/

/-- Joins labels with dots in front of a tail string: the literal shape of a
match `lab₁.lab₂.…​.t`. -/
def joinLabs : List Str → Str → Str
  | [], t => t
  | lab :: labs, t => lab ++ '.' :: joinLabs labs t

/-- Splitting a string that starts with a separated field peels off that
field. -/
theorem splitOnCharAux_sep (sep : Char) (y : Str) (acc : Str) :
    splitOnCharAux sep (sep :: y) acc = acc.reverse :: splitOnCharAux sep y [] := by
  simp [splitOnCharAux]

theorem splitOnChar_star_dot (y : Str) :
    splitOnChar '.' ('*' :: '.' :: y) = ['*'] :: splitOnChar '.' y := by
  simp [splitOnChar, splitOnCharAux]

/-- Either the input does not start with `*.` and `trimPrefixStar` is the
identity, or it does and exactly that prefix is removed. -/
theorem trimPrefixStar_cases (x : Str) :
    (trimPrefixStar x = x ∧ ∀ y, x ≠ '*' :: '.' :: y) ∨
      ∃ y, x = '*' :: '.' :: y ∧ trimPrefixStar x = y := by
  match x with
  | [] => exact Or.inl ⟨rfl, fun y h => by cases h⟩
  | [c] => exact Or.inl ⟨rfl, fun y h => by cases h⟩
  | c :: c2 :: rest =>
    by_cases h1 : c = '*' ∧ c2 = '.'
    · obtain ⟨rfl, rfl⟩ := h1
      exact Or.inr ⟨rest, rfl, by simp [trimPrefixStar]⟩
    · refine Or.inl ⟨?_, ?_⟩
      · have : (c = '*' && c2 = '.') = false := by
          rcases not_and_or.mp h1 with h | h <;> simp [h]
        simp [trimPrefixStar, this]
      · intro y h; cases h; exact h1 ⟨rfl, rfl⟩

/-- Unfolding of the validator in the in-range case. -/
theorem isValidSubdomain_of_inRange (x : Str) (h0 : x.length ≠ 0)
    (h253 : x.length ≤ 253) :
    isValidSubdomain x =
      (splitOnChar '.' (trimPrefixStar x)).all
        (fun part => !(part.length = 0 || part.length > 63)) := by
  have h : ¬(x.length = 0 || x.length > 253) = true := by
    simp only [Bool.or_eq_true, decide_eq_true_eq, not_or]
    omega
  simp only [isValidSubdomain, if_neg h]

set_option maxRecDepth 40000 in
/-- C3 counterexample: `dom252` (252 chars) is accepted, but `*.` ++ `dom252`
(254 chars) is rejected, because the 253-length check runs before the
wildcard prefix is stripped.  So the validator's verdict on a `*.`-prefixed
string does not always equal its verdict on the stripped string, and the two
wildcard characters do count toward the 253-character limit. -/
theorem validator_wildcard_counterexample :
    isValidSubdomain dom252 = true ∧
      isValidSubdomain ('*' :: '.' :: dom252) = false := by
  constructor
  · decide
  · decide

/-- C3 (amended): `isValidSubdomain` strips the leading wildcard label before
the label checks, but after the total-length check; hence its verdict on a
`*.`-prefixed string equals its verdict on the stripped string only when the
prefixed string itself is within the 253-character limit. -/
theorem validator_strips_wildcard (x : Str)
    (h : ('*' :: '.' :: x).length ≤ 253) :
    isValidSubdomain ('*' :: '.' :: x) = isValidSubdomain x := by
  rw [isValidSubdomain_of_inRange ('*' :: '.' :: x) (by simp) h]
  have htps : trimPrefixStar ('*' :: '.' :: x) = x := by simp [trimPrefixStar]
  rw [htps]
  match x with
  | [] => simp [splitOnChar, splitOnCharAux, isValidSubdomain]
  | c :: x2 =>
    have hx0 : (c :: x2).length ≠ 0 := by simp
    have hx253 : (c :: x2).length ≤ 253 := by
      simp only [List.length_cons] at h ⊢; omega
    rw [isValidSubdomain_of_inRange _ hx0 hx253]
    rcases trimPrefixStar_cases (c :: x2) with ⟨heq, _⟩ | ⟨y, hxy, heq⟩
    · rw [heq]
    · rw [heq, hxy, splitOnChar_star_dot, List.all_cons]
      simp

/-- Witness for `validator_strips_wildcard` at the concrete input `*.a.b`. -/
theorem validator_strips_wildcard_witness :
    ('*' :: '.' :: str "a.b").length ≤ 253 ∧
      isValidSubdomain ('*' :: '.' :: str "a.b") = isValidSubdomain (str "a.b") :=
  ⟨by decide, validator_strips_wildcard (str "a.b") (by decide)⟩

/-- C10: the validator performs no character-class checking: a string is
accepted exactly when its total length is 1–253 and every dot-separated
label of the `*.`-stripped string has length 1–63, whatever the characters;
labels containing `_`, `!` or spaces pass, and only a single leading `*.` is
stripped, so `*.*.a.com` is judged with `*` as its first label (and is
accepted). -/
theorem validator_length_only_characterization :
    (∀ s : Str, isValidSubdomain s = true ↔
      (1 ≤ s.length ∧ s.length ≤ 253 ∧
        ∀ p ∈ splitOnChar '.' (trimPrefixStar s),
          1 ≤ p.length ∧ p.length ≤ 63)) ∧
    isValidSubdomain (str "a_b!c. d") = true ∧
    isValidSubdomain (str "*.*.a.com") = true ∧
    splitOnChar '.' (trimPrefixStar (str "*.*.a.com")) =
      [str "*", str "a", str "com"] := by
  refine ⟨fun s => ?_, by decide, by decide, by decide⟩
  constructor
  · intro hv
    by_cases h0 : s.length = 0
    · simp [isValidSubdomain, h0] at hv
    by_cases h253 : s.length ≤ 253
    · rw [isValidSubdomain_of_inRange s h0 h253] at hv
      refine ⟨by omega, h253, fun p hp => ?_⟩
      have := List.all_eq_true.mp hv p hp
      simp only [Bool.not_eq_eq_eq_not, Bool.not_true, Bool.or_eq_false_iff,
        decide_eq_false_iff_not] at this
      omega
    · exfalso
      have hbad : (s.length = 0 || s.length > 253) = true := by
        simp only [Bool.or_eq_true, decide_eq_true_eq]
        omega
      unfold isValidSubdomain at hv
      rw [if_pos hbad] at hv
      exact Bool.false_ne_true hv
  · rintro ⟨h1, h2, h3⟩
    rw [isValidSubdomain_of_inRange s (by omega) h2]
    refine List.all_eq_true.mpr fun p hp => ?_
    have := h3 p hp
    simp only [Bool.not_eq_eq_eq_not, Bool.not_true, Bool.or_eq_false_iff,
      decide_eq_false_iff_not]
    omega

set_option maxRecDepth 40000 in
/-- C4: on raw entries `["foo.example.com\nBAR.EXAMPLE.COM",
"not-related.org", "*.baz.example.com"]` with target `example.com`, the
extractor returns exactly `["bar.example.com", "baz.example.com",
"foo.example.com"]`: sorted, deduplicated, lowercased, wildcard-stripped,
with case-variant duplicates collapsed. -/
theorem extractor_concrete_example :
    extractSubdomains (str "example.com")
        [str "foo.example.com\nBAR.EXAMPLE.COM", str "not-related.org",
          str "*.baz.example.com"] =
      [str "bar.example.com", str "baz.example.com", str "foo.example.com"] := by
  decide

theorem queryLoop_attempts_le (d : Str) (oracle : Nat → AttemptOutcome)
    (rem att : Nat) (lastErr : Str) :
    (queryLoop d oracle rem att lastErr).attempts ≤ rem := by
  induction rem generalizing att lastErr with
  | zero => simp [queryLoop]
  | succ n ih =>
    unfold queryLoop
    cases stepOutcome (oracle att) with
    | immediate e => simp
    | success nvs => simp
    | failure e =>
      simp only []
      have := ih (att + 1) e
      omega

theorem queryLoop_attempts_pos (d : Str) (oracle : Nat → AttemptOutcome)
    (rem att : Nat) (lastErr : Str) (h : 1 ≤ rem) :
    1 ≤ (queryLoop d oracle rem att lastErr).attempts := by
  match rem, h with
  | n + 1, _ =>
    unfold queryLoop
    cases stepOutcome (oracle att) with
    | immediate e => simp
    | success nvs => simp
    | failure e => simp

theorem queryLoop_sleeps_ge2 (d : Str) (oracle : Nat → AttemptOutcome)
    (rem att : Nat) (lastErr : Str) (h : 2 ≤ att) :
    (queryLoop d oracle rem att lastErr).sleeps =
      List.range' att (queryLoop d oracle rem att lastErr).attempts := by
  induction rem generalizing att lastErr with
  | zero => simp [queryLoop]
  | succ n ih =>
    unfold queryLoop
    have hgt : att > 1 := by omega
    cases hso : stepOutcome (oracle att) with
    | immediate e => simp [if_pos hgt, List.range'_succ]
    | success nvs => simp [if_pos hgt, List.range'_succ]
    | failure e =>
      simp only [if_pos hgt]
      rw [ih (att + 1) e (by omega)]
      simp [List.range'_succ]

/-- C2 (amended): `queryAPI` performs no backoff sleep before attempt 1,
and the sleep performed before attempt `n` (n ≥ 2) lasts exactly `n` time
units — so a run that enters attempts `1..m` sleeps `[2, 3, ..., m]`, not
`[1, 2, ...]`. -/
theorem fetcher_backoff_sleeps (d : Str) (oracle : Nat → AttemptOutcome) :
    (queryAPI d oracle).sleeps =
      List.range' 2 ((queryAPI d oracle).attempts - 1) := by
  unfold queryAPI maxRetries
  unfold queryLoop
  cases hso : stepOutcome (oracle 1) with
  | immediate e => simp
  | success nvs => simp
  | failure e =>
    simp only [show ¬(1 > 1) from by omega, if_neg, List.nil_append]
    rw [queryLoop_sleeps_ge2 d oracle 2 2 e (by omega)]
    simp

/-- C2 counterexample: in a run where every attempt fails, the sleeps
before attempts 2 and 3 are 2 and 3 time units — not 1 and 2 as claimed. -/
theorem fetcher_backoff_counterexample :
    (queryAPI (str "example.com") oracleAllFail).sleeps = [2, 3] ∧
      [2, 3] ≠ [1, 2] := by decide

/-- C1 (amended): the fetcher makes at most `maxRetries = 3` attempts; if
the first attempt whose outcome is classified successful (HTTP status
exactly 200 — not any 2xx —, non-HTML body, JSON array parses) is attempt
`k`, it returns the extracted results immediately after `k` attempts; and
if all 3 attempts fail it returns a single error wrapping the last recorded
failure. -/
theorem fetcher_retry_contract (d : Str) (oracle : Nat → AttemptOutcome) :
    (queryAPI d oracle).attempts ≤ 3 ∧
    (∀ k nvs, 1 ≤ k → k ≤ 3 →
      (∀ j, 1 ≤ j → j < k → isFailStep (oracle j)) →
      stepOutcome (oracle k) = .success nvs →
      (queryAPI d oracle).result = .ok (extractSubdomains d nvs) ∧
        (queryAPI d oracle).attempts = k) ∧
    (∀ e3, (∀ j, 1 ≤ j → j ≤ 3 → isFailStep (oracle j)) →
      stepOutcome (oracle 3) = .failure e3 →
      (queryAPI d oracle).result = .error (wrapErrMsg e3) ∧
        (queryAPI d oracle).attempts = 3) := by
  refine ⟨queryLoop_attempts_le d oracle 3 1 [], ?_, ?_⟩
  · intro k nvs hk1 hk3 hfail hsucc
    interval_cases k
    · unfold queryAPI maxRetries queryLoop
      simp [hsucc]
    · obtain ⟨e1, he1⟩ := hfail 1 (by omega) (by omega)
      unfold queryAPI maxRetries queryLoop
      simp only [he1]
      unfold queryLoop
      simp [hsucc]
    · obtain ⟨e1, he1⟩ := hfail 1 (by omega) (by omega)
      obtain ⟨e2, he2⟩ := hfail 2 (by omega) (by omega)
      unfold queryAPI maxRetries queryLoop
      simp only [he1]
      unfold queryLoop
      simp only [he2]
      unfold queryLoop
      simp [hsucc]
  · intro e3 hfail he3
    obtain ⟨e1, he1⟩ := hfail 1 (by omega) (by omega)
    obtain ⟨e2, he2⟩ := hfail 2 (by omega) (by omega)
    unfold queryAPI maxRetries queryLoop
    simp only [he1]
    unfold queryLoop
    simp only [he2]
    unfold queryLoop
    simp only [he3]
    simp [queryLoop]

/-- Witness for `fetcher_retry_contract`: success at attempt 2 returns the
extracted records after exactly 2 attempts, with no 3rd attempt. -/
theorem fetcher_retry_contract_witness :
    (queryAPI (str "example.com") oracleFailThenOk).result =
      .ok (extractSubdomains (str "example.com") [str "a.example.com"]) ∧
    (queryAPI (str "example.com") oracleFailThenOk).attempts = 2 := by
  have h := (fetcher_retry_contract (str "example.com") oracleFailThenOk).2.1
    2 [str "a.example.com"] (by omega) (by omega)
    (fun j hj1 hj2 => by
      interval_cases j
      exact ⟨str "timeout", by decide⟩)
    (by decide)
  exact h

/-- C1 counterexample: an attempt with a 2xx (201) status, a non-HTML body
and a parsing JSON array is nevertheless not treated as a success — the
code requires status exactly 200 — so the fetcher retries and exhausts all
3 attempts instead of returning the results immediately. -/
theorem fetcher_2xx_counterexample :
    (queryAPI (str "example.com") oracle201).result =
      .error (wrapErrMsg (httpErrMsg 201)) ∧
    (queryAPI (str "example.com") oracle201).attempts = 3 ∧
    (200 ≤ 201 ∧ 201 ≤ 299) ∧
    hasPrefixStr (str "<") (trimSpace (str "[]")) = false := by decide

/-- C7: a response with HTTP 200 status whose body, after trimming, starts
with `<` is classified as a recorded failure — never a success, whatever
`json.Unmarshal` would say about the body — and the retry loop then
proceeds to a further attempt. -/
theorem fetcher_html_detection (body : Str) (parseRes : Res Str (List CRTRec))
    (h : hasPrefixStr (str "<") (trimSpace body) = true) :
    stepOutcome (.resp 200 (.ok body) parseRes) = .failure htmlErrMsg ∧
    ∀ d oracle, oracle 1 = .resp 200 (.ok body) parseRes →
      2 ≤ (queryAPI d oracle).attempts := by
  have hstep : stepOutcome (.resp 200 (.ok body) parseRes) = .failure htmlErrMsg := by
    simp [stepOutcome, h]
  refine ⟨hstep, fun d oracle h1 => ?_⟩
  unfold queryAPI maxRetries queryLoop
  rw [h1, hstep]
  show 2 ≤ (queryLoop d oracle 2 2 htmlErrMsg).attempts + 1
  have := queryLoop_attempts_pos d oracle 2 2 htmlErrMsg (by omega)
  omega

/-- Witness for `fetcher_html_detection` at a concrete HTML body. -/
theorem fetcher_html_detection_witness :
    stepOutcome (.resp 200 (.ok (str " <html>error</html>")) (.ok [])) =
      .failure htmlErrMsg ∧
    2 ≤ (queryAPI (str "example.com") oracleHtml).attempts := by
  have h := fetcher_html_detection (str " <html>error</html>") (.ok []) (by decide)
  exact ⟨h.1, h.2 (str "example.com") oracleHtml rfl⟩

theorem lexLt_irrefl (a : Str) : lexLt a a = false := by
  induction a with
  | nil => rfl
  | cons c cs ih => simp [lexLt, ih]

theorem lexLt_asymm (a b : Str) (h : lexLt a b = true) : lexLt b a = false := by
  induction a generalizing b with
  | nil =>
    cases b with
    | nil => simp [lexLt] at h
    | cons y ys => rfl
  | cons x xs ih =>
    cases b with
    | nil => simp [lexLt] at h
    | cons y ys =>
      simp only [lexLt] at h ⊢
      rcases lt_trichotomy x y with hxy | hxy | hxy
      · simp [hxy, not_lt_of_gt hxy]
      · subst hxy
        simp only [lt_irrefl, if_false] at h ⊢
        exact ih ys h
      · simp [hxy, not_lt_of_gt hxy] at h

theorem lexLt_trans (a b c : Str) (hab : lexLt a b = true)
    (hbc : lexLt b c = true) : lexLt a c = true := by
  induction a generalizing b c with
  | nil =>
    cases c with
    | nil =>
      cases b with
      | nil => exact hab
      | cons y ys => simp [lexLt] at hbc
    | cons z zs => rfl
  | cons x xs ih =>
    cases b with
    | nil => simp [lexLt] at hab
    | cons y ys =>
      cases c with
      | nil => simp [lexLt] at hbc
      | cons z zs =>
        simp only [lexLt] at hab hbc ⊢
        rcases lt_trichotomy x y with hxy | hxy | hxy
        · rcases lt_trichotomy y z with hyz | hyz | hyz
          · simp [lt_trans hxy hyz]
          · subst hyz; simp [hxy]
          · simp [hyz, not_lt_of_gt hyz] at hbc
        · subst hxy
          simp only [lt_irrefl, if_false] at hab
          rcases lt_trichotomy x z with hyz | hyz | hyz
          · simp [hyz]
          · subst hyz
            simp only [lt_irrefl, if_false] at hbc ⊢
            exact ih ys zs hab hbc
          · simp [hyz, not_lt_of_gt hyz] at hbc
        · simp [hxy, not_lt_of_gt hxy] at hab

theorem lexLt_total (a b : Str) (hab : lexLt a b = false)
    (hba : lexLt b a = false) : a = b := by
  induction a generalizing b with
  | nil =>
    cases b with
    | nil => rfl
    | cons y ys => simp [lexLt] at hab
  | cons x xs ih =>
    cases b with
    | nil => simp [lexLt] at hba
    | cons y ys =>
      simp only [lexLt] at hab hba
      rcases lt_trichotomy x y with hxy | hxy | hxy
      · simp [hxy] at hab
      · subst hxy
        simp only [lt_irrefl, if_false] at hab hba
        rw [ih ys hab hba]
      · simp [hxy, not_lt_of_gt hxy] at hba

theorem mem_insertSet (v w : Str) (l : List Str) :
    v ∈ insertSet w l ↔ v = w ∨ v ∈ l := by
  induction l with
  | nil => simp [insertSet]
  | cons x xs ih =>
    simp only [insertSet]
    by_cases h1 : lexLt w x = true
    · rw [if_pos h1]
      simp [List.mem_cons]
    · rw [if_neg h1]
      by_cases h2 : w = x
      · subst h2
        rw [if_pos rfl]
        simp only [List.mem_cons]
        tauto
      · rw [if_neg h2]
        simp only [List.mem_cons, ih]
        tauto

theorem insertSet_head? (w : Str) (l : List Str) :
    (insertSet w l).head? = some w ∨ (insertSet w l).head? = l.head? := by
  cases l with
  | nil => simp [insertSet]
  | cons x xs =>
    simp only [insertSet]
    by_cases h1 : lexLt w x = true
    · rw [if_pos h1]; simp
    · rw [if_neg h1]
      by_cases h2 : w = x
      · rw [if_pos h2]; simp
      · rw [if_neg h2]; simp

theorem lexLt_of_ne_of_not_lt (w x : Str) (h1 : ¬lexLt w x = true)
    (h2 : ¬w = x) : lexLt x w = true := by
  cases hlt : lexLt x w with
  | true => rfl
  | false =>
    cases hwx : lexLt w x with
    | true => exact absurd hwx h1
    | false => exact absurd (lexLt_total w x hwx hlt) h2

theorem insertSet_chain (w : Str) (l : List Str) (h : List.Chain' ltB l) :
    List.Chain' ltB (insertSet w l) := by
  induction l with
  | nil => simp [insertSet, List.chain'_singleton]
  | cons x xs ih =>
    rw [List.chain'_cons'] at h
    obtain ⟨hhead, htail⟩ := h
    simp only [insertSet]
    by_cases h1 : lexLt w x = true
    · rw [if_pos h1, List.chain'_cons]
      exact ⟨h1, List.chain'_cons'.mpr ⟨hhead, htail⟩⟩
    · rw [if_neg h1]
      by_cases h2 : w = x
      · rw [if_pos h2]
        exact List.chain'_cons'.mpr ⟨hhead, htail⟩
      · rw [if_neg h2, List.chain'_cons']
        refine ⟨?_, ih htail⟩
        intro y hy
        rcases insertSet_head? w xs with hh | hh
        · rw [hh] at hy
          cases hy
          exact lexLt_of_ne_of_not_lt w x h1 h2
        · rw [hh] at hy
          exact hhead y hy

theorem chain_head_lt (x : Str) (xs : List Str) (h : List.Chain' ltB (x :: xs)) :
    ∀ v ∈ xs, lexLt x v = true := by
  induction xs generalizing x with
  | nil => intro v hv; cases hv
  | cons y ys ih =>
    rw [List.chain'_cons] at h
    intro v hv
    rcases List.mem_cons.mp hv with rfl | hv
    · exact h.1
    · exact lexLt_trans x y v h.1 (ih y h.2 v hv)

theorem chain_not_mem_self (x : Str) (xs : List Str)
    (h : List.Chain' ltB (x :: xs)) : x ∉ xs := by
  intro hx
  have := chain_head_lt x xs h x hx
  rw [lexLt_irrefl] at this
  cases this

theorem chain_ext : ∀ (l1 l2 : List Str), List.Chain' ltB l1 →
    List.Chain' ltB l2 → (∀ w, w ∈ l1 ↔ w ∈ l2) → l1 = l2
  | [], [], _, _, _ => rfl
  | [], y :: ys, _, _, hm => absurd ((hm y).mpr (List.mem_cons_self y ys)) (by simp)
  | x :: xs, [], _, _, hm => absurd ((hm x).mp (List.mem_cons_self x xs)) (by simp)
  | x :: xs, y :: ys, h1, h2, hm => by
    have hxy : x = y := by
      rcases List.mem_cons.mp ((hm x).mp (List.mem_cons_self x xs)) with h | h
      · exact h
      · rcases List.mem_cons.mp ((hm y).mpr (List.mem_cons_self y ys)) with h3 | h3
        · exact h3.symm
        · have p1 := chain_head_lt y ys h2 x h
          have p2 := chain_head_lt x xs h1 y h3
          rw [lexLt_asymm y x p1] at p2
          cases p2
    subst hxy
    have hmem : ∀ w, w ∈ xs ↔ w ∈ ys := by
      intro w
      constructor
      · intro hw
        rcases List.mem_cons.mp ((hm w).mp (List.mem_cons.mpr (Or.inr hw))) with h | h
        · subst h; exact absurd hw (chain_not_mem_self w xs h1)
        · exact h
      · intro hw
        rcases List.mem_cons.mp ((hm w).mpr (List.mem_cons.mpr (Or.inr hw))) with h | h
        · subst h; exact absurd hw (chain_not_mem_self w ys h2)
        · exact h
    rw [chain_ext xs ys (List.Chain'.tail h1) (List.Chain'.tail h2) hmem]

theorem sortDedup_foldl_chain (l : List Str) (acc : List Str)
    (h : List.Chain' ltB acc) :
    List.Chain' ltB (l.foldl (fun acc w => insertSet w acc) acc) := by
  induction l generalizing acc with
  | nil => exact h
  | cons x xs ih => exact ih (insertSet x acc) (insertSet_chain x acc h)

theorem sortDedup_chain (l : List Str) : List.Chain' ltB (sortDedup l) :=
  sortDedup_foldl_chain l [] List.chain'_nil

theorem sortDedup_foldl_mem (l : List Str) (acc : List Str) (v : Str) :
    v ∈ l.foldl (fun acc w => insertSet w acc) acc ↔ v ∈ acc ∨ v ∈ l := by
  induction l generalizing acc with
  | nil => simp
  | cons x xs ih =>
    simp only [List.foldl_cons, ih, mem_insertSet, List.mem_cons]
    tauto

theorem mem_sortDedup (v : Str) (l : List Str) : v ∈ sortDedup l ↔ v ∈ l := by
  unfold sortDedup
  rw [sortDedup_foldl_mem]
  simp

theorem sortDedup_ext (l : List Str) (r : List Str) (hr : List.Chain' ltB r)
    (hm : ∀ w, w ∈ l ↔ w ∈ r) : sortDedup l = r := by
  refine chain_ext (sortDedup l) r (sortDedup_chain l) hr fun w => ?_
  rw [mem_sortDedup]
  exact hm w

theorem processDomain_fst (fetch : Str → Res Str (List Str)) (dm : Str)
    (t : Nat) : (processDomain fetch dm t).1 = (processDomain fetch dm 0).1 := by
  unfold processDomain
  by_cases h : (trimSpace dm).map Char.toLower = []
  · rw [if_pos h, if_pos h]
  · rw [if_neg h, if_neg h]
    cases fetch ((trimSpace dm).map Char.toLower) with
    | error e => rfl
    | ok subs => rfl

theorem batchLoop_chain (fetch : Str → Res Str (List Str)) (ds : List Str)
    (t : Nat) (acc : List Str) (h : List.Chain' ltB acc) :
    List.Chain' ltB (batchLoop fetch ds t acc).1 := by
  induction ds generalizing t acc with
  | nil => exact h
  | cons dm rest ih =>
    exact ih _ _ (sortDedup_foldl_chain (processDomain fetch dm t).1 acc h)

theorem batchLoop_mem (fetch : Str → Res Str (List Str)) (ds : List Str)
    (t : Nat) (acc : List Str) (w : Str) :
    w ∈ (batchLoop fetch ds t acc).1 ↔
      w ∈ acc ∨ ∃ dm ∈ ds, w ∈ (processDomain fetch dm 0).1 := by
  induction ds generalizing t acc with
  | nil => simp [batchLoop]
  | cons dm rest ih =>
    simp only [batchLoop, ih, sortDedup_foldl_mem, List.mem_cons]
    rw [processDomain_fst fetch dm t]
    constructor
    · rintro ((h | h) | ⟨d2, hd2, hw⟩)
      · exact Or.inl h
      · exact Or.inr ⟨dm, Or.inl rfl, h⟩
      · exact Or.inr ⟨d2, Or.inr hd2, hw⟩
    · rintro (h | ⟨d2, rfl | hd2, hw⟩)
      · exact Or.inl (Or.inl h)
      · exact Or.inl (Or.inr hw)
      · exact Or.inr ⟨d2, hd2, hw⟩

theorem chain_nodup (l : List Str) (h : List.Chain' ltB l) : l.Nodup := by
  induction l with
  | nil => exact List.nodup_nil
  | cons x xs ih =>
    exact List.nodup_cons.mpr ⟨chain_not_mem_self x xs h, ih (List.Chain'.tail h)⟩

/-- Shared core of the batch-orchestrator invariants: sortedness,
duplicate-freeness, the union membership characterization and the final
counter value, for either mode and any worker completion order. -/
theorem batchRun_invariants (fetch : Str → Res Str (List Str))
    (lines : List Str) (concurrent : Bool) (sched : List Str → List Str)
    (hs : List.Perm (sched (domainsOfLines lines)) (domainsOfLines lines)) :
    List.Chain' ltB (processDomainsFromFile fetch lines concurrent sched).1 ∧
    (processDomainsFromFile fetch lines concurrent sched).1.Nodup ∧
    (∀ w, w ∈ (processDomainsFromFile fetch lines concurrent sched).1 ↔
      ∃ dm ∈ domainsOfLines lines, w ∈ (processDomain fetch dm 0).1) ∧
    (processDomainsFromFile fetch lines concurrent sched).2 =
      (processDomainsFromFile fetch lines concurrent sched).1.length := by
  unfold processDomainsFromFile
  set order := if concurrent && decide ((domainsOfLines lines).length > 1)
    then sched (domainsOfLines lines) else domainsOfLines lines with horder
  have horder_mem : ∀ dm, dm ∈ order ↔ dm ∈ domainsOfLines lines := by
    intro dm
    rw [horder]
    by_cases hc : (concurrent && decide ((domainsOfLines lines).length > 1)) = true
    · rw [if_pos hc]
      exact hs.mem_iff
    · rw [if_neg hc]
  have hchain := batchLoop_chain fetch order 0 [] List.chain'_nil
  refine ⟨hchain, chain_nodup _ hchain, ?_, rfl⟩
  intro w
  rw [batchLoop_mem]
  simp only [List.not_mem_nil, false_or]
  constructor
  · rintro ⟨dm, hdm, hw⟩
    exact ⟨dm, (horder_mem dm).mp hdm, hw⟩
  · rintro ⟨dm, hdm, hw⟩
    exact ⟨dm, (horder_mem dm).mpr hdm, hw⟩

/-- C5: after a batch run over any list of domains, in either mode and for
any worker completion order, the returned sequence is sorted and
duplicate-free, its members are exactly the union of all per-domain result
sets produced in the run, and the final `totalFound` equals the size of
that final set (the incrementally accumulated per-domain sum is
overwritten). -/
theorem batch_aggregate_invariants (fetch : Str → Res Str (List Str))
    (lines : List Str) (concurrent : Bool) (sched : List Str → List Str)
    (hs : List.Perm (sched (domainsOfLines lines)) (domainsOfLines lines)) :
    List.Chain' ltB (processDomainsFromFile fetch lines concurrent sched).1 ∧
    (processDomainsFromFile fetch lines concurrent sched).1.Nodup ∧
    (∀ w, w ∈ (processDomainsFromFile fetch lines concurrent sched).1 ↔
      ∃ dm ∈ domainsOfLines lines, w ∈ (processDomain fetch dm 0).1) ∧
    (processDomainsFromFile fetch lines concurrent sched).2 =
      (processDomainsFromFile fetch lines concurrent sched).1.length :=
  batchRun_invariants fetch lines concurrent sched hs

/-- Witness for `batch_aggregate_invariants`: a two-domain batch with
overlapping per-domain results, identity completion order. -/
theorem batch_aggregate_invariants_witness :
    (processDomainsFromFile
        (fun d => if d = str "a.com" then .ok [str "x.a.com"]
          else .ok [str "x.a.com", str "y.b.com"])
        [str "a.com", str "b.com"] true id).1.Nodup ∧
    (processDomainsFromFile
        (fun d => if d = str "a.com" then .ok [str "x.a.com"]
          else .ok [str "x.a.com", str "y.b.com"])
        [str "a.com", str "b.com"] true id).2 =
      (processDomainsFromFile
        (fun d => if d = str "a.com" then .ok [str "x.a.com"]
          else .ok [str "x.a.com", str "y.b.com"])
        [str "a.com", str "b.com"] true id).1.length := by
  have h := batch_aggregate_invariants
    (fun d => if d = str "a.com" then .ok [str "x.a.com"]
      else .ok [str "x.a.com", str "y.b.com"])
    [str "a.com", str "b.com"] true id (List.Perm.refl _)
  exact ⟨h.2.1, h.2.2.2⟩

/-- C6: with the same per-domain fetch outcomes, concurrent mode (under any
worker completion order) and sequential mode return the same final merged
list and the same final total-found count: the merged set is independent of
merge order. -/
theorem batch_concurrent_eq_sequential (fetch : Str → Res Str (List Str))
    (lines : List Str) (sched : List Str → List Str)
    (hs : List.Perm (sched (domainsOfLines lines)) (domainsOfLines lines)) :
    processDomainsFromFile fetch lines true sched =
      processDomainsFromFile fetch lines false sched := by
  have h1 := batchRun_invariants fetch lines true sched hs
  have h2 := batchRun_invariants fetch lines false sched hs
  have hfst : (processDomainsFromFile fetch lines true sched).1 =
      (processDomainsFromFile fetch lines false sched).1 := by
    refine chain_ext _ _ h1.1 h2.1 fun w => ?_
    rw [(h1.2.2.1) w, (h2.2.2.1) w]
  have hsnd : (processDomainsFromFile fetch lines true sched).2 =
      (processDomainsFromFile fetch lines false sched).2 := by
    rw [h1.2.2.2, h2.2.2.2, hfst]
  exact Prod.ext hfst hsnd

/-- Witness for `batch_concurrent_eq_sequential`: the spec's overlap
example, where `a.com` yields one subdomain and `b.com` two with one
shared. -/
theorem batch_concurrent_eq_sequential_witness :
    processDomainsFromFile
        (fun d => if d = str "a.com" then .ok [str "x.a.com"]
          else .ok [str "x.a.com", str "y.b.com"])
        [str "a.com", str "b.com"] true id =
      processDomainsFromFile
        (fun d => if d = str "a.com" then .ok [str "x.a.com"]
          else .ok [str "x.a.com", str "y.b.com"])
        [str "a.com", str "b.com"] false id :=
  batch_concurrent_eq_sequential
    (fun d => if d = str "a.com" then .ok [str "x.a.com"]
      else .ok [str "x.a.com", str "y.b.com"])
    [str "a.com", str "b.com"] id (List.Perm.refl _)

theorem inflightCount_replicate_pending (n : Nat) :
    inflightCount (List.replicate n .pending) = 0 := by
  induction n with
  | zero => rfl
  | succ k ih =>
    rw [List.replicate_succ]
    simp only [inflightCount, List.countP_cons] at *
    simp [ih, isInflight]

/-- C9: in concurrent mode the semaphore of capacity `maxWorkers` bounds
admission: in every reachable state of the worker pool, at most
`maxWorkers` domain fetches are in flight simultaneously. -/
theorem pool_inflight_bounded (cap n : Nat) (s : List TaskPhase)
    (h : PoolReachable cap n s) : inflightCount s ≤ cap := by
  induction h with
  | init => rw [inflightCount_replicate_pending]; exact Nat.zero_le cap
  | step s t hr hstep ih =>
    cases hstep with
    | acquire i hget hlt =>
      obtain ⟨hi, hv⟩ := List.getElem?_eq_some_iff.mp hget
      simp only [inflightCount] at hlt ⊢
      rw [List.countP_set _ _ _ _ hi, hv]
      rw [show (if isInflight TaskPhase.pending = true then 1 else 0) = 0 from rfl]
      rw [show (if isInflight TaskPhase.inflight = true then 1 else 0) = 1 from rfl]
      omega
    | release i hget =>
      obtain ⟨hi, hv⟩ := List.getElem?_eq_some_iff.mp hget
      simp only [inflightCount] at ih ⊢
      rw [List.countP_set _ _ _ _ hi, hv]
      rw [show (if isInflight TaskPhase.inflight = true then 1 else 0) = 1 from rfl]
      rw [show (if isInflight TaskPhase.finished = true then 1 else 0) = 0 from rfl]
      omega

/-- Witness for `pool_inflight_bounded`: with `maxWorkers = 2` and 5
domains, the state reached after two admissions has exactly 2 fetches in
flight, which is within the bound. -/
theorem pool_inflight_bounded_witness :
    inflightCount ((List.replicate 5 TaskPhase.pending).set 0
        TaskPhase.inflight |>.set 1 TaskPhase.inflight) = 2 ∧
    inflightCount ((List.replicate 5 TaskPhase.pending).set 0
        TaskPhase.inflight |>.set 1 TaskPhase.inflight) ≤ 2 := by
  have hr : PoolReachable 2 5 ((List.replicate 5 TaskPhase.pending).set 0
      TaskPhase.inflight |>.set 1 TaskPhase.inflight) :=
    .step _ _ (.step _ _ .init (.acquire _ 0 (by decide) (by decide)))
      (.acquire _ 1 (by decide) (by decide))
  exact ⟨by decide, pool_inflight_bounded 2 5 _ hr⟩

/-! ## Character-level facts

Bridges between `Char` comparisons and `Nat` arithmetic on code points,
and the behaviour of ASCII case folding, used to analyse the extractor. -/

theorem uint32_le_iff (a b : UInt32) : a ≤ b ↔ a.toNat ≤ b.toNat := by
  rw [UInt32.le_def]
  exact BitVec.le_def

theorem charToNat_inj (a b : Char) (h : a.toNat = b.toNat) : a = b := by
  apply Char.ext
  rcases a with ⟨⟨abv⟩, ha⟩
  rcases b with ⟨⟨bbv⟩, hb⟩
  have h2 : abv = bbv := BitVec.eq_of_toNat_eq h
  simp [h2]

theorem charLe_iff (a b : Char) : (a ≤ b) ↔ a.toNat ≤ b.toNat := by
  rw [Char.le_def]
  exact uint32_le_iff _ _

theorem charEq_iff_toNat (a b : Char) : a = b ↔ a.toNat = b.toNat :=
  ⟨fun h => by rw [h], charToNat_inj a b⟩

theorem charOfNatAux_toNat (n : Nat) (h : n.isValidChar) :
    (Char.ofNatAux n h).toNat = n := by
  simp [Char.ofNatAux, Char.toNat, UInt32.toNat]

theorem toLower_toNat_of_upper (c : Char) (h : UpperN c) :
    (Char.toLower c).toNat = c.toNat + 32 := by
  unfold Char.toLower
  rw [if_pos ⟨h.1, h.2⟩]
  have hv : (c.toNat + 32).isValidChar := Or.inl (by
    have := h.2
    omega)
  unfold Char.ofNat
  rw [dif_pos hv]
  exact charOfNatAux_toNat _ hv

theorem toLower_eq_of_not_upper (c : Char) (h : ¬UpperN c) :
    Char.toLower c = c := by
  unfold Char.toLower
  rw [if_neg]
  intro hc
  exact h ⟨hc.1, hc.2⟩

theorem toLower_not_upper (c : Char) : ¬UpperN (Char.toLower c) := by
  by_cases h : UpperN c
  · rw [UpperN, toLower_toNat_of_upper c h]
    obtain ⟨h1, h2⟩ := h
    omega
  · rw [toLower_eq_of_not_upper c h]
    exact h

theorem toLower_idem (c : Char) :
    Char.toLower (Char.toLower c) = Char.toLower c :=
  toLower_eq_of_not_upper _ (toLower_not_upper c)

theorem charLe_toNat_left (k : Nat) (c : Char) (hv : (OfNat.ofNat k : UInt32).toNat = k)
    (h : (OfNat.ofNat k : UInt32) ≤ c.val) : k ≤ c.toNat := by
  have := (uint32_le_iff _ _).mp h
  rw [hv] at this
  exact this

theorem charLe_toNat_right (k : Nat) (c : Char) (hv : (OfNat.ofNat k : UInt32).toNat = k)
    (h : c.val ≤ (OfNat.ofNat k : UInt32)) : c.toNat ≤ k := by
  have := (uint32_le_iff _ _).mp h
  rw [hv] at this
  exact this

theorem charLe_of_toNat_left (k : Nat) (c : Char) (hv : (OfNat.ofNat k : UInt32).toNat = k)
    (h : k ≤ c.toNat) : (OfNat.ofNat k : UInt32) ≤ c.val := by
  apply (uint32_le_iff _ _).mpr
  rw [hv]
  exact h

theorem charLe_of_toNat_right (k : Nat) (c : Char) (hv : (OfNat.ofNat k : UInt32).toNat = k)
    (h : c.toNat ≤ k) : c.val ≤ (OfNat.ofNat k : UInt32) := by
  apply (uint32_le_iff _ _).mpr
  rw [hv]
  exact h

theorem isWordChar_iff (c : Char) : isWordChar c = true ↔
    ((48 ≤ c.toNat ∧ c.toNat ≤ 57) ∨ (65 ≤ c.toNat ∧ c.toNat ≤ 90) ∨
      (97 ≤ c.toNat ∧ c.toNat ≤ 122) ∨ c.toNat = 95) := by
  unfold isWordChar Char.isAlphanum Char.isAlpha Char.isDigit Char.isUpper
    Char.isLower
  simp only [Bool.or_eq_true, Bool.and_eq_true, decide_eq_true_eq, ge_iff_le]
  constructor
  · rintro (((⟨h1, h2⟩ | ⟨h1, h2⟩) | ⟨h1, h2⟩) | rfl)
    · exact Or.inr (Or.inl ⟨charLe_toNat_left 65 c rfl h1, charLe_toNat_right 90 c rfl h2⟩)
    · exact Or.inr (Or.inr (Or.inl ⟨charLe_toNat_left 97 c rfl h1,
        charLe_toNat_right 122 c rfl h2⟩))
    · exact Or.inl ⟨charLe_toNat_left 48 c rfl h1, charLe_toNat_right 57 c rfl h2⟩
    · exact Or.inr (Or.inr (Or.inr rfl))
  · rintro (⟨h1, h2⟩ | ⟨h1, h2⟩ | ⟨h1, h2⟩ | h1)
    · exact Or.inl (Or.inr ⟨charLe_of_toNat_left 48 c rfl h1,
        charLe_of_toNat_right 57 c rfl h2⟩)
    · exact Or.inl (Or.inl (Or.inl ⟨charLe_of_toNat_left 65 c rfl h1,
        charLe_of_toNat_right 90 c rfl h2⟩))
    · exact Or.inl (Or.inl (Or.inr ⟨charLe_of_toNat_left 97 c rfl h1,
        charLe_of_toNat_right 122 c rfl h2⟩))
    · exact Or.inr (charToNat_inj c '_' h1)

theorem alnumCI_iff (c : Char) : alnumCI c = true ↔
    ((97 ≤ c.toNat ∧ c.toNat ≤ 122) ∨ (65 ≤ c.toNat ∧ c.toNat ≤ 90) ∨
      (48 ≤ c.toNat ∧ c.toNat ≤ 57)) := by
  unfold alnumCI
  simp only [Bool.or_eq_true, Bool.and_eq_true, decide_eq_true_eq, charLe_iff]
  have ea : ('a').toNat = 97 := rfl
  have ez : ('z').toNat = 122 := rfl
  have eA : ('A').toNat = 65 := rfl
  have eZ : ('Z').toNat = 90 := rfl
  have e0 : ('0').toNat = 48 := rfl
  have e9 : ('9').toNat = 57 := rfl
  rw [ea, ez, eA, eZ, e0, e9]
  tauto

theorem alnumDashCI_iff (c : Char) : alnumDashCI c = true ↔
    ((97 ≤ c.toNat ∧ c.toNat ≤ 122) ∨ (65 ≤ c.toNat ∧ c.toNat ≤ 90) ∨
      (48 ≤ c.toNat ∧ c.toNat ≤ 57) ∨ c.toNat = 45) := by
  unfold alnumDashCI
  simp only [Bool.or_eq_true, decide_eq_true_eq]
  rw [alnumCI_iff, charEq_iff_toNat]
  have ed : ('-').toNat = 45 := rfl
  rw [ed]
  tauto

theorem isSpaceGo_iff (c : Char) : isSpaceGo c = true ↔
    (c.toNat = 32 ∨ c.toNat = 9 ∨ c.toNat = 10 ∨ c.toNat = 11 ∨
      c.toNat = 12 ∨ c.toNat = 13 ∨ c.toNat = 133 ∨ c.toNat = 160) := by
  unfold isSpaceGo
  simp only [Bool.or_eq_true, decide_eq_true_eq]
  rw [charEq_iff_toNat, charEq_iff_toNat, charEq_iff_toNat, charEq_iff_toNat,
    charEq_iff_toNat, charEq_iff_toNat, charEq_iff_toNat, charEq_iff_toNat]
  have e1 : (' ').toNat = 32 := rfl
  have e2 : ('\t').toNat = 9 := rfl
  have e3 : ('\n').toNat = 10 := rfl
  have e4 : (Char.ofNat 11).toNat = 11 := rfl
  have e5 : (Char.ofNat 12).toNat = 12 := rfl
  have e6 : ('\r').toNat = 13 := rfl
  have e7 : (Char.ofNat 133).toNat = 133 := rfl
  have e8 : (Char.ofNat 160).toNat = 160 := rfl
  rw [e1, e2, e3, e4, e5, e6, e7, e8]
  tauto

theorem isWordChar_toLower (c : Char) :
    isWordChar (Char.toLower c) = isWordChar c := by
  by_cases h : UpperN c
  · have h2 := toLower_toNat_of_upper c h
    obtain ⟨hu1, hu2⟩ := h
    have hc : isWordChar c = true := by
      rw [isWordChar_iff]
      omega
    have hl : isWordChar (Char.toLower c) = true := by
      rw [isWordChar_iff, h2]
      omega
    rw [hc, hl]
  · rw [toLower_eq_of_not_upper c h]

theorem alnumCI_toLower (c : Char) (h : alnumCI c = true) :
    alnumCI (Char.toLower c) = true := by
  rw [alnumCI_iff] at h ⊢
  by_cases hu : UpperN c
  · rw [toLower_toNat_of_upper c hu]
    obtain ⟨h1, h2⟩ := hu
    omega
  · rw [toLower_eq_of_not_upper c hu]
    exact h

theorem alnumDashCI_toLower (c : Char) (h : alnumDashCI c = true) :
    alnumDashCI (Char.toLower c) = true := by
  rw [alnumDashCI_iff] at h ⊢
  by_cases hu : UpperN c
  · rw [toLower_toNat_of_upper c hu]
    obtain ⟨h1, h2⟩ := hu
    omega
  · rw [toLower_eq_of_not_upper c hu]
    exact h

theorem isWordChar_not_space (c : Char) (h : isWordChar c = true) :
    isSpaceGo c = false := by
  rw [isWordChar_iff] at h
  rw [Bool.eq_false_iff, Ne, isSpaceGo_iff]
  omega

theorem isWordChar_ne_star (c : Char) (h : isWordChar c = true) : c ≠ '*' := by
  rw [isWordChar_iff] at h
  rw [Ne, charEq_iff_toNat]
  have : ('*').toNat = 42 := rfl
  omega

theorem alnumDashCI_ne_newline (c : Char) (h : alnumDashCI c = true) :
    c ≠ '\n' := by
  rw [alnumDashCI_iff] at h
  rw [Ne, charEq_iff_toNat]
  have : ('\n').toNat = 10 := rfl
  omega

theorem alnumCI_isWordChar (c : Char) (h : alnumCI c = true) :
    isWordChar c = true := by
  rw [alnumCI_iff] at h
  rw [isWordChar_iff]
  omega

theorem toLower_ne_newline (c : Char) (h : c ≠ '\n') :
    Char.toLower c ≠ '\n' := by
  by_cases hu : UpperN c
  · rw [Ne, charEq_iff_toNat, toLower_toNat_of_upper c hu]
    have : ('\n').toNat = 10 := rfl
    obtain ⟨h1, h2⟩ := hu
    omega
  · rw [toLower_eq_of_not_upper c hu]
    exact h

theorem ciEqStr_length (t d : Str) (h : ciEqStr t d = true) :
    t.length = d.length := by
  induction t generalizing d with
  | nil => cases d with
    | nil => rfl
    | cons b bs => simp [ciEqStr] at h
  | cons a as ih =>
    cases d with
    | nil => simp [ciEqStr] at h
    | cons b bs =>
      simp only [ciEqStr, Bool.and_eq_true] at h
      simp [ih bs h.2]

theorem ciEqStr_map_toLower (t d : Str) (h : ciEqStr t d = true) :
    t.map Char.toLower = d.map Char.toLower := by
  induction t generalizing d with
  | nil => cases d with
    | nil => rfl
    | cons b bs => simp [ciEqStr] at h
  | cons a as ih =>
    cases d with
    | nil => simp [ciEqStr] at h
    | cons b bs =>
      simp only [ciEqStr, Bool.and_eq_true] at h
      have h1 : Char.toLower a = Char.toLower b := by
        have := h.1
        simpa [ciEq] using this
      simp [h1, ih bs h.2]

theorem ciEqStr_refl (t : Str) : ciEqStr t t = true := by
  induction t with
  | nil => rfl
  | cons a as ih => simp [ciEqStr, ciEq, ih]

theorem matchLit_of_ciEqStr (d t r : Str) (h : ciEqStr t d = true) :
    matchLit d (t ++ r) = true := by
  induction d generalizing t with
  | nil => rfl
  | cons p ps ih =>
    cases t with
    | nil => simp [ciEqStr] at h
    | cons a as =>
      simp only [ciEqStr, Bool.and_eq_true] at h
      simp only [List.cons_append, matchLit, Bool.and_eq_true]
      exact ⟨h.1, ih as h.2⟩

theorem matchLit_length (d s : Str) (h : matchLit d s = true) :
    d.length ≤ s.length := by
  induction d generalizing s with
  | nil => simp
  | cons p ps ih =>
    cases s with
    | nil => simp [matchLit] at h
    | cons c cs =>
      simp only [matchLit, Bool.and_eq_true] at h
      have := ih cs h.2
      simp only [List.length_cons]
      omega

theorem matchLit_take (d s : Str) (h : matchLit d s = true) :
    ciEqStr (s.take d.length) d = true := by
  induction d generalizing s with
  | nil => simp [ciEqStr]
  | cons p ps ih =>
    cases s with
    | nil => simp [matchLit] at h
    | cons c cs =>
      simp only [matchLit, Bool.and_eq_true] at h
      simp only [List.length_cons, List.take_succ_cons, ciEqStr, Bool.and_eq_true]
      exact ⟨h.1, ih cs h.2⟩

/-! ## Run and candidate lemmas -/

theorem runLen_le_length (s : Str) : runLen s ≤ s.length := by
  induction s with
  | nil => simp [runLen]
  | cons c cs ih =>
    simp only [runLen, List.length_cons]
    by_cases h : alnumDashCI c = true
    · rw [if_pos h]; omega
    · rw [if_neg h]; omega

theorem runLen_all (s : Str) (n : Nat) (hn : n ≤ runLen s) :
    ∀ c ∈ s.take n, alnumDashCI c = true := by
  induction s generalizing n with
  | nil => simp
  | cons c cs ih =>
    cases n with
    | zero => simp
    | succ m =>
      simp only [runLen] at hn
      by_cases h : alnumDashCI c = true
      · rw [if_pos h] at hn
        intro x hx
        simp only [List.take_succ_cons, List.mem_cons] at hx
        rcases hx with rfl | hx
        · exact h
        · exact ih m (by omega) x hx
      · rw [if_neg h] at hn
        omega

theorem runLen_stop (lab : Str) (c0 : Char) (r : Str)
    (hall : ∀ c ∈ lab, alnumDashCI c = true) (hc0 : alnumDashCI c0 = false) :
    runLen (lab ++ c0 :: r) = lab.length := by
  induction lab with
  | nil => simp [runLen, hc0]
  | cons c cs ih =>
    simp only [List.cons_append, runLen]
    rw [if_pos (hall c (List.mem_cons_self c cs))]
    have := ih (fun x hx => hall x (List.mem_cons_of_mem c hx))
    simp only [List.append_eq] at this ⊢
    rw [this]
    simp

theorem mem_descRange (m n : Nat) : m ∈ descRange n ↔ 1 ≤ m ∧ m ≤ n := by
  induction n with
  | zero =>
    simp only [descRange, List.not_mem_nil, false_iff]
    omega
  | succ k ih =>
    simp only [descRange, List.mem_cons, ih]
    omega

theorem take_head? (s : Str) (n : Nat) (hn : 1 ≤ n) :
    (s.take n).head? = s.head? := by
  cases s with
  | nil => simp
  | cons c cs =>
    cases n with
    | zero => omega
    | succ m => simp

theorem take_getLast? (s : Str) (n : Nat) (h1 : 1 ≤ n) (h2 : n ≤ s.length) :
    (s.take n).getLast? = s[n - 1]? := by
  rw [List.getLast?_eq_getElem?, List.length_take]
  have hmin : min n s.length = n := by omega
  rw [hmin, List.getElem?_take, if_pos (by omega : n - 1 < n)]

theorem labelCandidates_sound (s : Str) (n : Nat) (h : n ∈ labelCandidates s) :
    1 ≤ n ∧ n ≤ 63 ∧ n ≤ runLen s ∧ n ≤ s.length ∧ LabelShapeP (s.take n) := by
  cases s with
  | nil => simp [labelCandidates] at h
  | cons c cs =>
    have hred : labelCandidates (c :: cs) =
        if alnumCI c = true then
          (descRange (min 63 (runLen (c :: cs)))).filter (labelShapeAt (c :: cs))
        else [] := rfl
    rw [hred] at h
    by_cases hc : alnumCI c = true
    · rw [if_pos hc] at h
      rw [List.mem_filter] at h
      obtain ⟨hmem, hshape⟩ := h
      rw [mem_descRange] at hmem
      obtain ⟨h1, h2⟩ := hmem
      have hrun : n ≤ runLen (c :: cs) := by omega
      have h63 : n ≤ 63 := by omega
      have hlen : n ≤ (c :: cs).length :=
        le_trans hrun (runLen_le_length (c :: cs))
      refine ⟨h1, h63, hrun, hlen, ?_, ?_, ?_, ?_, ?_⟩
      · intro hnil
        have : ((c :: cs).take n).length = n := by
          rw [List.length_take]
          omega
        rw [hnil] at this
        simp at this
        omega
      · rw [List.length_take]
        omega
      · exact runLen_all (c :: cs) n hrun
      · intro x hx
        rw [take_head? (c :: cs) n h1] at hx
        simp only [List.head?_cons, Option.some_inj] at hx
        exact hx ▸ hc
      · intro x hx
        rw [take_getLast? (c :: cs) n h1 hlen] at hx
        unfold labelShapeAt at hshape
        rw [hx] at hshape
        exact hshape
    · rw [if_neg hc] at h
      simp at h

/-! ## Fuel stability and soundness of the backtracking matcher -/

theorem findSome?_congr {α β : Type} (f g : α → Option β) (l : List α)
    (h : ∀ a ∈ l, f a = g a) : l.findSome? f = l.findSome? g := by
  induction l with
  | nil => rfl
  | cons x xs ih =>
    rw [List.findSome?_cons, List.findSome?_cons, h x (List.mem_cons_self x xs)]
    cases g x with
    | none => exact ih (fun a ha => h a (List.mem_cons_of_mem x ha))
    | some b => rfl

theorem matchTailF_succ (d : Str) (fuel : Nat) (prev : Option Char) (s : Str) :
    matchTailF d (fuel + 1) prev s =
      match (labelCandidates s).findSome? (fun n =>
          if s[n]? = some '.' then
            (matchTailF d fuel (some '.') (s.drop (n + 1))).map (fun t => n + 1 + t)
          else none) with
      | some r => some r
      | none => matchDHere d prev s := rfl

theorem matchTailF_stable (d : Str) : ∀ (fuel1 fuel2 : Nat) (prev : Option Char)
    (s : Str), s.length < fuel1 → s.length < fuel2 →
    matchTailF d fuel1 prev s = matchTailF d fuel2 prev s := by
  intro fuel1
  induction fuel1 with
  | zero =>
    intro fuel2 prev s h1 h2
    omega
  | succ f ih =>
    intro fuel2 prev s h1 h2
    cases fuel2 with
    | zero => omega
    | succ g =>
      rw [matchTailF_succ, matchTailF_succ]
      have hcongr : (labelCandidates s).findSome? (fun n =>
            if s[n]? = some '.' then
              (matchTailF d f (some '.') (s.drop (n + 1))).map (fun t => n + 1 + t)
            else none) =
          (labelCandidates s).findSome? (fun n =>
            if s[n]? = some '.' then
              (matchTailF d g (some '.') (s.drop (n + 1))).map (fun t => n + 1 + t)
            else none) := by
        apply findSome?_congr
        intro n hn
        obtain ⟨hn1, _, _, hnlen, _⟩ := labelCandidates_sound s n hn
        by_cases hdot : s[n]? = some '.'
        · rw [if_pos hdot, if_pos hdot]
          have hlen : (s.drop (n + 1)).length = s.length - (n + 1) :=
            List.length_drop _ _
          rw [ih g (some '.') (s.drop (n + 1)) (by omega) (by omega)]
        · rw [if_neg hdot, if_neg hdot]
      rw [hcongr]

theorem matchTailF_eq_matchTail (d : Str) (fuel : Nat) (prev : Option Char)
    (s : Str) (h : s.length < fuel) :
    matchTailF d fuel prev s = matchTail d prev s :=
  matchTailF_stable d fuel (s.length + 1) prev s h (by omega)

theorem matchTailF_sound (d : Str) : ∀ (fuel : Nat) (prev : Option Char)
    (s : Str) (n : Nat), matchTailF d fuel prev s = some n →
    n ≤ s.length ∧ ChainShape d (s.take n) := by
  intro fuel
  induction fuel with
  | zero =>
    intro prev s n h
    simp [matchTailF] at h
  | succ f ih =>
    intro prev s n h
    rw [matchTailF_succ] at h
    cases hfs : (labelCandidates s).findSome? (fun k =>
        if s[k]? = some '.' then
          (matchTailF d f (some '.') (s.drop (k + 1))).map (fun t => k + 1 + t)
        else none) with
    | some r =>
      rw [hfs] at h
      simp only [Option.some_inj] at h
      subst h
      obtain ⟨k, hk, hkeq⟩ := List.exists_of_findSome?_eq_some hfs
      by_cases hdot : s[k]? = some '.'
      · rw [if_pos hdot] at hkeq
        rw [Option.map_eq_some'] at hkeq
        obtain ⟨t, hmt, hteq⟩ := hkeq
        obtain ⟨htlen, htshape⟩ := ih (some '.') (s.drop (k + 1)) t hmt
        obtain ⟨hk1, _, _, hklen, hkshape⟩ := labelCandidates_sound s k hk
        have hdlen : (s.drop (k + 1)).length = s.length - (k + 1) :=
          List.length_drop _ _
        have hklt : k < s.length := (List.getElem?_eq_some_iff.mp hdot).1
        subst hteq
        constructor
        · omega
        · have hsplit : s.take (k + 1 + t) =
              s.take k ++ '.' :: ((s.drop (k + 1)).take t) := by
            rw [List.take_add, List.take_succ, hdot]
            simp
          rw [hsplit]
          exact ChainShape.cons _ _ hkshape htshape
      · rw [if_neg hdot] at hkeq
        cases hkeq
    | none =>
      rw [hfs] at h
      unfold matchDHere at h
      by_cases hml : matchLit d s = true
      · rw [if_pos hml] at h
        by_cases hb : boundaryB (if d.length = 0 then prev else s[d.length - 1]?)
            (s.drop d.length).head? = true
        · rw [if_pos hb] at h
          simp only [Option.some_inj] at h
          subst h
          exact ⟨matchLit_length d s hml, ChainShape.base _ (matchLit_take d s hml)⟩
        · rw [if_neg hb] at h
          cases h
      · rw [if_neg hml] at h
        cases h

theorem matchTail_sound (d : Str) (prev : Option Char) (s : Str) (n : Nat)
    (h : matchTail d prev s = some n) :
    n ≤ s.length ∧ ChainShape d (s.take n) :=
  matchTailF_sound d (s.length + 1) prev s n h

/-! ## Completeness: an extracted subdomain matches itself entirely -/

theorem matchTailF_none_of_short (d : Str) : ∀ (fuel : Nat) (prev : Option Char)
    (s : Str), s.length < d.length → matchTailF d fuel prev s = none := by
  intro fuel
  induction fuel with
  | zero => intro prev s h; rfl
  | succ f ih =>
    intro prev s h
    rw [matchTailF_succ]
    have hfs : (labelCandidates s).findSome? (fun k =>
        if s[k]? = some '.' then
          (matchTailF d f (some '.') (s.drop (k + 1))).map (fun t => k + 1 + t)
        else none) = none := by
      rw [List.findSome?_eq_none_iff]
      intro k hk
      obtain ⟨hk1, _, _, hklen, _⟩ := labelCandidates_sound s k hk
      by_cases hdot : s[k]? = some '.'
      · rw [if_pos hdot]
        rw [ih (some '.') (s.drop (k + 1)) (by rw [List.length_drop]; omega)]
        rfl
      · rw [if_neg hdot]
    rw [hfs]
    show matchDHere d prev s = none
    unfold matchDHere
    rw [if_neg]
    intro hml
    have := matchLit_length d s hml
    omega

/-- The word-boundary after a final word character at the end of input. -/
theorem boundaryB_some_none (c : Char) (h : isWordChar c = true) :
    boundaryB (some c) none = true := by
  unfold boundaryB
  rw [show wordOpt (some c) = isWordChar c from rfl,
    show wordOpt none = false from rfl, h]
  rfl

theorem matchTail_at_domain (d : Str) (prev : Option Char) (hd : d ≠ [])
    (hlast : ∀ c, d.getLast? = some c → isWordChar c = true) :
    matchTail d prev d = some d.length := by
  unfold matchTail
  rw [matchTailF_succ]
  have hfs : (labelCandidates d).findSome? (fun k =>
      if d[k]? = some '.' then
        (matchTailF d d.length (some '.') (d.drop (k + 1))).map (fun t => k + 1 + t)
      else none) = none := by
    rw [List.findSome?_eq_none_iff]
    intro k hk
    obtain ⟨hk1, _, _, hklen, _⟩ := labelCandidates_sound d k hk
    by_cases hdot : d[k]? = some '.'
    · rw [if_pos hdot]
      rw [matchTailF_none_of_short d d.length (some '.') (d.drop (k + 1))
        (by rw [List.length_drop]; omega)]
      rfl
    · rw [if_neg hdot]
  rw [hfs]
  show matchDHere d prev d = some d.length
  unfold matchDHere
  have hml : matchLit d d = true := by
    have := matchLit_of_ciEqStr d d [] (ciEqStr_refl d)
    rwa [List.append_nil] at this
  rw [if_pos hml]
  have hlen0 : ¬d.length = 0 := by
    intro h
    exact hd (List.length_eq_zero.mp h)
  rw [if_neg hlen0]
  cases hgl : d.getLast? with
  | none => exact absurd (List.getLast?_eq_none_iff.mp hgl) hd
  | some c =>
    have hc := hlast c hgl
    have hget : d[d.length - 1]? = some c := by
      rw [← List.getLast?_eq_getElem?]
      exact hgl
    rw [hget, List.drop_length]
    simp only [List.head?_nil]
    rw [if_pos (boundaryB_some_none c hc)]

theorem matchTail_label_step (d : Str) (hd : d ≠ []) (lab rest : Str)
    (hshape : LabelShapeP lab) (prev : Option Char)
    (hrest : matchTail d (some '.') rest = some rest.length) :
    matchTail d prev (lab ++ '.' :: rest) = some (lab ++ '.' :: rest).length := by
  obtain ⟨hnil, h63, hall, hhead, hlastl⟩ := hshape
  cases lab with
  | nil => exact absurd rfl hnil
  | cons c cs =>
  unfold matchTail
  rw [matchTailF_succ]
  have hs : (c :: cs) ++ '.' :: rest = c :: (cs ++ '.' :: rest) := rfl
  have hrun : runLen ((c :: cs) ++ '.' :: rest) = (c :: cs).length :=
    runLen_stop (c :: cs) '.' rest hall (by decide)
  have hcands : labelCandidates ((c :: cs) ++ '.' :: rest) =
      (c :: cs).length ::
        (descRange cs.length).filter
          (labelShapeAt ((c :: cs) ++ '.' :: rest)) := by
    have hred : labelCandidates ((c :: cs) ++ '.' :: rest) =
        if alnumCI c = true then
          (descRange (min 63 (runLen ((c :: cs) ++ '.' :: rest)))).filter
            (labelShapeAt ((c :: cs) ++ '.' :: rest))
        else [] := rfl
    rw [hred, if_pos (hhead c rfl), hrun]
    have hmin : min 63 (c :: cs).length = (c :: cs).length := by
      simp only [List.length_cons] at h63 ⊢
      omega
    rw [hmin]
    rw [show descRange ((c :: cs).length) =
      (c :: cs).length :: descRange cs.length from rfl]
    rw [List.filter_cons_of_pos]
    unfold labelShapeAt
    have hidx : ((c :: cs) ++ '.' :: rest)[(c :: cs).length - 1]? =
        (c :: cs).getLast? := by
      rw [List.getElem?_append]
      rw [if_pos (by simp only [List.length_cons]; omega)]
      rw [← List.getLast?_eq_getElem?]
    rw [hidx]
    cases hgl : (c :: cs).getLast? with
    | none => exact absurd (List.getLast?_eq_none_iff.mp hgl) hnil
    | some e => exact hlastl e hgl
  rw [hcands, List.findSome?_cons]
  have hdot : ((c :: cs) ++ '.' :: rest)[(c :: cs).length]? = some '.' := by
    rw [List.getElem?_append_right (le_refl _)]
    simp
  rw [if_pos hdot]
  have hdrop : ((c :: cs) ++ '.' :: rest).drop ((c :: cs).length + 1) = rest := by
    have := @List.drop_append Char (c :: cs) ('.' :: rest) 1
    simpa using this
  rw [hdrop]
  have hstable : matchTailF d ((c :: cs) ++ '.' :: rest).length (some '.') rest =
      some rest.length := by
    rw [matchTailF_eq_matchTail d _ (some '.') rest (by
      rw [List.length_append]
      simp only [List.length_cons]
      omega)]
    exact hrest
  rw [hstable]
  simp only [Option.map_some']
  have harith : (c :: cs).length + 1 + rest.length =
      ((c :: cs) ++ '.' :: rest).length := by
    rw [List.length_append]
    simp only [List.length_cons]
    omega
  rw [harith]

theorem matchTail_full (d : Str) (hd : d ≠ [])
    (hlast : ∀ c, d.getLast? = some c → isWordChar c = true) (w : Str)
    (hw : LowChain d w) : ∀ prev, matchTail d prev w = some w.length := by
  induction hw with
  | base => exact fun prev => matchTail_at_domain d prev hd hlast
  | cons lab rest hshape hrest ih =>
    exact fun prev => matchTail_label_step d hd lab rest hshape prev (ih (some '.'))

theorem scanF_succ (d : Str) (fuel : Nat) (prev : Option Char) (s : Str) :
    scanF d (fuel + 1) prev s =
      (if boundaryB prev s.head? = true then matchTail d prev s else none).elim
        (match s with
          | [] => []
          | c :: rest => scanF d fuel (some c) rest)
        (fun n =>
          if n = 0 then
            match s with
            | [] => [[]]
            | c :: rest => [] :: scanF d fuel (some c) rest
          else (s.take n) :: scanF d fuel s[n - 1]? (s.drop n)) := rfl

theorem scanF_nil_of_word (d : Str) (hd : d ≠ []) (fuel : Nat)
    (prev : Option Char) : scanF d (fuel + 1) prev [] = [] := by
  rw [scanF_succ]
  have hm : matchTail d prev [] = none := by
    unfold matchTail
    exact matchTailF_none_of_short d 1 prev [] (by
      simp only [List.length_nil]
      exact List.length_pos.mpr hd)
  by_cases hb : boundaryB prev (List.head? ([] : Str)) = true
  · rw [if_pos hb, hm]
    rfl
  · rw [if_neg hb]
    rfl

theorem findAll_single (d : Str) (hd : d ≠ []) (w : Str)
    (hm : matchTail d none w = some w.length) (hne : w ≠ [])
    (hfirst : ∀ c, w.head? = some c → isWordChar c = true) :
    findAll d w = [w] := by
  unfold findAll
  rw [scanF_succ]
  have hb : boundaryB none w.head? = true := by
    cases w with
    | nil => exact absurd rfl hne
    | cons c cs =>
      unfold boundaryB wordOpt
      simp only [List.head?_cons]
      rw [hfirst c rfl]
      rfl
  rw [if_pos hb, hm]
  have hlen0 : ¬w.length = 0 := by
    intro h
    exact hne (List.length_eq_zero.mp h)
  rw [Option.elim_some]
  rw [if_neg hlen0]
  rw [List.take_length, List.drop_length]
  cases hwl : w.length with
  | zero => exact absurd hwl hlen0
  | succ k =>
    rw [scanF_nil_of_word d hd k]

/-! ## Soundness of the scan, and splitting lemmas -/

theorem scanF_sound (d : Str) : ∀ (fuel : Nat) (prev : Option Char) (s : Str)
    (m : Str), m ∈ scanF d fuel prev s →
    ChainShape d m ∧ ∃ pre post, s = pre ++ (m ++ post) := by
  intro fuel
  induction fuel with
  | zero =>
    intro prev s m h
    simp [scanF] at h
  | succ f ih =>
    intro prev s m h
    rw [scanF_succ] at h
    by_cases hb : boundaryB prev s.head? = true
    · rw [if_pos hb] at h
      cases hm : matchTail d prev s with
      | none =>
        rw [hm, Option.elim_none] at h
        cases s with
        | nil => simp at h
        | cons c rest =>
          obtain ⟨hc, pre, post, heq⟩ := ih (some c) rest m h
          exact ⟨hc, c :: pre, post, by rw [heq]; rfl⟩
      | some n =>
        rw [hm, Option.elim_some] at h
        by_cases hn : n = 0
        · rw [if_pos hn] at h
          subst hn
          have hsh := (matchTail_sound d prev s 0 hm).2
          simp only [List.take_zero] at hsh
          cases s with
          | nil =>
            simp only [List.mem_singleton] at h
            subst h
            exact ⟨hsh, [], [], rfl⟩
          | cons c rest =>
            rcases List.mem_cons.mp h with rfl | h2
            · exact ⟨hsh, [], c :: rest, rfl⟩
            · obtain ⟨hc, pre, post, heq⟩ := ih (some c) rest m h2
              exact ⟨hc, c :: pre, post, by rw [heq]; rfl⟩
        · rw [if_neg hn] at h
          rcases List.mem_cons.mp h with rfl | h2
          · have hsound := matchTail_sound d prev s n hm
            refine ⟨hsound.2, [], s.drop n, ?_⟩
            rw [List.nil_append, List.take_append_drop]
          · obtain ⟨hc, pre, post, heq⟩ := ih s[n - 1]? (s.drop n) m h2
            refine ⟨hc, s.take n ++ pre, post, ?_⟩
            conv_lhs => rw [← List.take_append_drop n s]
            rw [heq, List.append_assoc]
    · rw [if_neg hb, Option.elim_none] at h
      cases s with
      | nil => simp at h
      | cons c rest =>
        obtain ⟨hc, pre, post, heq⟩ := ih (some c) rest m h
        exact ⟨hc, c :: pre, post, by rw [heq]; rfl⟩

theorem findAll_sound (d : Str) (s : Str) (m : Str) (h : m ∈ findAll d s) :
    ChainShape d m ∧ ∃ pre post, s = pre ++ (m ++ post) :=
  scanF_sound d (s.length + 1) none s m h

theorem splitOnCharAux_no_sep (sep : Char) : ∀ (s acc : Str),
    (∀ c ∈ acc, c ≠ sep) → ∀ e ∈ splitOnCharAux sep s acc, ∀ c ∈ e, c ≠ sep := by
  intro s
  induction s with
  | nil =>
    intro acc hacc e he c hc
    simp only [splitOnCharAux, List.mem_singleton] at he
    subst he
    exact hacc c (List.mem_reverse.mp hc)
  | cons a as ih =>
    intro acc hacc e he c hc
    simp only [splitOnCharAux] at he
    by_cases ha : a = sep
    · rw [if_pos ha] at he
      rcases List.mem_cons.mp he with rfl | he2
      · exact hacc c (List.mem_reverse.mp hc)
      · exact ih [] (by simp) e he2 c hc
    · rw [if_neg ha] at he
      refine ih (a :: acc) ?_ e he c hc
      intro x hx
      rcases List.mem_cons.mp hx with rfl | hx2
      · exact ha
      · exact hacc x hx2

theorem splitOnChar_no_sep (sep : Char) (s : Str) (e : Str)
    (he : e ∈ splitOnChar sep s) : ∀ c ∈ e, c ≠ sep :=
  splitOnCharAux_no_sep sep s [] (by simp) e he

theorem splitOnCharAux_single (sep : Char) : ∀ (s acc : Str),
    (∀ c ∈ s, c ≠ sep) → splitOnCharAux sep s acc = [acc.reverse ++ s] := by
  intro s
  induction s with
  | nil =>
    intro acc h
    simp [splitOnCharAux]
  | cons a as ih =>
    intro acc h
    simp only [splitOnCharAux]
    rw [if_neg (h a (List.mem_cons_self a as))]
    rw [ih (a :: acc) (fun c hc => h c (List.mem_cons_of_mem a hc))]
    simp

theorem splitOnChar_single (sep : Char) (s : Str) (h : ∀ c ∈ s, c ≠ sep) :
    splitOnChar sep s = [s] := by
  unfold splitOnChar
  rw [splitOnCharAux_single sep s [] h]
  simp

theorem hasPrefixStr_mem (needle hay : Str) (h : hasPrefixStr needle hay = true)
    (c : Char) (hc : c ∈ needle) : c ∈ hay := by
  induction needle generalizing hay with
  | nil => cases hc
  | cons a as ih =>
    cases hay with
    | nil => simp [hasPrefixStr] at h
    | cons b bs =>
      simp only [hasPrefixStr, Bool.and_eq_true, decide_eq_true_eq] at h
      rcases List.mem_cons.mp hc with rfl | hc2
      · rw [h.1]
        exact List.mem_cons_self b bs
      · exact List.mem_cons_of_mem b (ih bs h.2 hc2)

theorem containsStr_mem (hay needle : Str) (h : containsStr hay needle = true)
    (c : Char) (hc : c ∈ needle) : c ∈ hay := by
  induction hay with
  | nil =>
    cases needle with
    | nil => cases hc
    | cons a as => simp [containsStr, hasPrefixStr] at h
  | cons b bs ih =>
    simp only [containsStr, Bool.or_eq_true] at h
    rcases h with h | h
    · exact hasPrefixStr_mem needle (b :: bs) h c hc
    · exact List.mem_cons_of_mem b (ih h)

theorem mem_extract_iff (d : Str) (nvs : List Str) (w : Str) :
    w ∈ extractSubdomains d nvs ↔
      (keepCandidate d w = true ∧ ∃ nv ∈ nvs, ∃ entry ∈ splitOnChar '\n' nv,
        ∃ m ∈ findAll d entry, normalizeMatch m = w) := by
  unfold extractSubdomains
  rw [mem_sortDedup, List.mem_filter, List.mem_map]
  simp only [List.mem_flatMap]
  constructor
  · rintro ⟨⟨m, ⟨entry, ⟨nv, hnv, hentry⟩, hmm⟩, hnorm⟩, hkeep⟩
    exact ⟨hkeep, nv, hnv, entry, hentry, m, hmm, hnorm⟩
  · rintro ⟨hkeep, nv, hnv, entry, hentry, m, hmm, hnorm⟩
    exact ⟨⟨m, ⟨entry, ⟨nv, hnv, hentry⟩, hmm⟩, hnorm⟩, hkeep⟩

theorem chainShape_decomp (d m : Str) (h : ChainShape d m) :
    ∃ labs t, m = joinLabs labs t ∧ (∀ lab ∈ labs, LabelShapeP lab) ∧
      ciEqStr t d = true := by
  induction h with
  | base t ht => exact ⟨[], t, rfl, by simp, ht⟩
  | cons lab rest hlab hrest ih =>
    obtain ⟨labs, t, heq, hall, ht⟩ := ih
    refine ⟨lab :: labs, t, by rw [heq]; rfl, ?_, ht⟩
    intro l hl
    rcases List.mem_cons.mp hl with rfl | hl2
    · exact hlab
    · exact hall l hl2

theorem lowChain_joinLabs (d : Str) (labs : List Str)
    (hall : ∀ lab ∈ labs, LabelShapeP lab) : LowChain d (joinLabs labs d) := by
  induction labs with
  | nil => exact LowChain.base
  | cons lab labs ih =>
    exact LowChain.cons lab _ (hall lab (List.mem_cons_self _ _))
      (ih (fun l hl => hall l (List.mem_cons_of_mem lab hl)))

theorem joinLabs_ne_nil (labs : List Str) (t : Str) (ht : t ≠ []) :
    joinLabs labs t ≠ [] := by
  cases labs with
  | nil => exact ht
  | cons lab labs =>
    show lab ++ '.' :: joinLabs labs t ≠ []
    exact List.append_ne_nil_of_right_ne_nil lab (by simp)

theorem joinLabs_head_word (labs : List Str) (t : Str)
    (hlabs : ∀ lab ∈ labs, LabelShapeP lab)
    (ht : ∀ c, t.head? = some c → isWordChar c = true) :
    ∀ c, (joinLabs labs t).head? = some c → isWordChar c = true := by
  cases labs with
  | nil => exact ht
  | cons lab labs =>
    intro c hc
    obtain ⟨hne, _, _, hhead, _⟩ := hlabs lab (List.mem_cons_self _ _)
    rw [show joinLabs (lab :: labs) t = lab ++ '.' :: joinLabs labs t from rfl] at hc
    rw [List.head?_append_of_ne_nil lab hne] at hc
    exact alnumCI_isWordChar c (hhead c hc)

theorem joinLabs_getLast? (labs : List Str) (t : Str) (ht : t ≠ []) :
    (joinLabs labs t).getLast? = t.getLast? := by
  induction labs with
  | nil => rfl
  | cons lab labs ih =>
    show (lab ++ '.' :: joinLabs labs t).getLast? = t.getLast?
    rw [List.getLast?_append]
    have hJ : joinLabs labs t ≠ [] := joinLabs_ne_nil labs t ht
    obtain ⟨j, J2, hJ2⟩ := List.exists_cons_of_ne_nil hJ
    rw [hJ2, List.getLast?_cons_cons, ← hJ2, ih]
    cases hgl : t.getLast? with
    | none => exact absurd (List.getLast?_eq_none_iff.mp hgl) ht
    | some cg => rfl

theorem mem_joinLabs (labs : List Str) (t : Str) (c : Char)
    (hc : c ∈ joinLabs labs t) :
    (∃ lab ∈ labs, c ∈ lab) ∨ c = '.' ∨ c ∈ t := by
  induction labs with
  | nil => exact Or.inr (Or.inr hc)
  | cons lab labs ih =>
    rw [show joinLabs (lab :: labs) t = lab ++ '.' :: joinLabs labs t from rfl] at hc
    rcases List.mem_append.mp hc with h | h
    · exact Or.inl ⟨lab, List.mem_cons_self _ _, h⟩
    · rcases List.mem_cons.mp h with rfl | h2
      · exact Or.inr (Or.inl rfl)
      · rcases ih h2 with ⟨l, hl, hcl⟩ | h3
        · exact Or.inl ⟨l, List.mem_cons_of_mem lab hl, hcl⟩
        · exact Or.inr h3

theorem map_toLower_joinLabs (labs : List Str) (t : Str) :
    (joinLabs labs t).map Char.toLower =
      joinLabs (labs.map (List.map Char.toLower)) (t.map Char.toLower) := by
  induction labs with
  | nil => rfl
  | cons lab labs ih =>
    show (lab ++ '.' :: joinLabs labs t).map Char.toLower = _
    rw [List.map_append, List.map_cons, ih]
    rfl

theorem labelShapeP_map_toLower (lab : Str) (h : LabelShapeP lab) :
    LabelShapeP (lab.map Char.toLower) := by
  obtain ⟨hne, hlen, hall, hhead, hlast⟩ := h
  refine ⟨fun h2 => hne (List.map_eq_nil.mp h2), by simpa using hlen, ?_, ?_, ?_⟩
  · intro c hc
    rw [List.mem_map] at hc
    obtain ⟨c0, hc0, rfl⟩ := hc
    exact alnumDashCI_toLower c0 (hall c0 hc0)
  · intro c hc
    rw [List.head?_map] at hc
    cases hh : lab.head? with
    | none => rw [hh] at hc; cases hc
    | some c0 =>
      rw [hh] at hc
      simp only [Option.map_some', Option.some_inj] at hc
      subst hc
      exact alnumCI_toLower c0 (hhead c0 hh)
  · intro c hc
    rw [List.getLast?_map] at hc
    cases hh : lab.getLast? with
    | none => rw [hh] at hc; cases hc
    | some c0 =>
      rw [hh] at hc
      simp only [Option.map_some', Option.some_inj] at hc
      subst hc
      exact alnumCI_toLower c0 (hlast c0 hh)

theorem ciEqStr_head (t d : Str) (h : ciEqStr t d = true) :
    ∀ c c2, t.head? = some c → d.head? = some c2 →
    Char.toLower c = Char.toLower c2 := by
  cases t with
  | nil =>
    intro c c2 hc
    cases hc
  | cons a as =>
    cases d with
    | nil => simp [ciEqStr] at h
    | cons b bs =>
      simp only [ciEqStr, Bool.and_eq_true] at h
      intro c c2 hc hc2
      simp only [List.head?_cons, Option.some_inj] at hc hc2
      subst hc
      subst hc2
      have := h.1
      simpa [ciEq] using this

theorem ciEqStr_getLast (t d : Str) (h : ciEqStr t d = true) :
    ∀ c c2, t.getLast? = some c → d.getLast? = some c2 →
    Char.toLower c = Char.toLower c2 := by
  induction t generalizing d with
  | nil =>
    intro c c2 hc
    cases hc
  | cons a as ih =>
    cases d with
    | nil => simp [ciEqStr] at h
    | cons b bs =>
      simp only [ciEqStr, Bool.and_eq_true] at h
      intro c c2 hc hc2
      cases as with
      | nil =>
        cases bs with
        | nil =>
          simp only [List.getLast?_singleton, Option.some_inj] at hc hc2
          subst hc
          subst hc2
          simpa [ciEq] using h.1
        | cons b2 bs2 => simp [ciEqStr] at h
      | cons a2 as2 =>
        cases bs with
        | cons b2 bs2 =>
          rw [List.getLast?_cons_cons] at hc hc2
          exact ih (b2 :: bs2) h.2 c c2 hc hc2
        | nil => simp [ciEqStr] at h

theorem ciEqStr_ne_nil (t d : Str) (h : ciEqStr t d = true) (hd : d ≠ []) :
    t ≠ [] := by
  intro ht
  subst ht
  cases d with
  | nil => exact hd rfl
  | cons b bs => simp [ciEqStr] at h

theorem dropWhile_eq_self_of_head (p : Char → Bool) (s : Str)
    (h : ∀ c, s.head? = some c → p c = false) : s.dropWhile p = s := by
  cases s with
  | nil => rfl
  | cons c cs =>
    rw [List.dropWhile_cons, h c rfl]
    simp

theorem trimSpace_eq_self (s : Str)
    (h1 : ∀ c, s.head? = some c → isSpaceGo c = false)
    (h2 : ∀ c, s.getLast? = some c → isSpaceGo c = false) : trimSpace s = s := by
  unfold trimSpace
  rw [dropWhile_eq_self_of_head _ s h1]
  rw [dropWhile_eq_self_of_head _ s.reverse (by
    intro c hc
    rw [List.head?_reverse] at hc
    exact h2 c hc)]
  simp

theorem trimPrefixStar_eq_self (s : Str)
    (h : ∀ c, s.head? = some c → c ≠ '*') : trimPrefixStar s = s := by
  cases s with
  | nil => rfl
  | cons a rest =>
    cases rest with
    | nil => rfl
    | cons b rest2 =>
      show (if a = '*' && b = '.' then rest2 else a :: b :: rest2) = _
      rw [if_neg]
      simp only [Bool.and_eq_true, decide_eq_true_eq]
      rintro ⟨rfl, _⟩
      exact h '*' rfl rfl

theorem mem_trimPrefixStar (s : Str) (c : Char) (hc : c ∈ trimPrefixStar s) :
    c ∈ s := by
  cases s with
  | nil => exact hc
  | cons a rest =>
    cases rest with
    | nil => exact hc
    | cons b rest2 =>
      by_cases hab : (a = '*' && b = '.') = true
      · have : trimPrefixStar (a :: b :: rest2) = rest2 := by
          show (if a = '*' && b = '.' then rest2 else a :: b :: rest2) = rest2
          rw [if_pos hab]
        rw [this] at hc
        exact List.mem_cons_of_mem a (List.mem_cons_of_mem b hc)
      · have : trimPrefixStar (a :: b :: rest2) = a :: b :: rest2 := by
          show (if a = '*' && b = '.' then rest2 else a :: b :: rest2) = _
          rw [if_neg hab]
        rw [this] at hc
        exact hc

theorem mem_trimSpace (s : Str) (c : Char) (hc : c ∈ trimSpace s) : c ∈ s := by
  unfold trimSpace at hc
  rw [List.mem_reverse] at hc
  have hc2 : c ∈ (s.dropWhile isSpaceGo).reverse :=
    List.Sublist.mem hc (List.dropWhile_sublist isSpaceGo)
  rw [List.mem_reverse] at hc2
  exact List.Sublist.mem hc2 (List.dropWhile_sublist isSpaceGo)

theorem mem_normalizeMatch (m : Str) (c : Char) (hc : c ∈ normalizeMatch m) :
    ∃ c0 ∈ m, c = Char.toLower c0 := by
  unfold normalizeMatch at hc
  have hc2 := mem_trimPrefixStar _ c hc
  rw [List.mem_map] at hc2
  obtain ⟨c0, hc0, rfl⟩ := hc2
  exact ⟨c0, mem_trimSpace m c0 hc0, rfl⟩

theorem map_toLower_noUpper (s : Str) (h : ∀ c ∈ s, ¬UpperN c) :
    s.map Char.toLower = s := by
  rw [List.map_congr_left (fun c hc => toLower_eq_of_not_upper c (h c hc))]
  exact List.map_id s

/-! ## Idempotence of the extractor on word-delimited domains -/

theorem extractSubdomains_def (d : Str) (nvs : List Str) :
    extractSubdomains d nvs =
      sortDedup
        ((((nvs.flatMap (splitOnChar '\n')).flatMap (findAll d)).map
            normalizeMatch).filter (keepCandidate d)) := rfl

theorem flatMap_singleton_id {α : Type} (l : List α) (f : α → List α)
    (h : ∀ x ∈ l, f x = [x]) : l.flatMap f = l := by
  induction l with
  | nil => rfl
  | cons a as ih =>
    rw [List.flatMap_cons, h a (List.mem_cons_self a as),
      ih (fun x hx => h x (List.mem_cons_of_mem a hx))]
    rfl

/-- Every output of the extractor, for a target domain made of word-character
ends and no uppercase letters, is a dot-chain of labels over the domain
itself, is newline-free, is a fixed point of normalization, and passes the
keep filter. -/
theorem output_structure (d : Str)
    (hfirst : ∀ c, d.head? = some c → isWordChar c = true)
    (hlast : ∀ c, d.getLast? = some c → isWordChar c = true)
    (hd : d ≠ []) (hnoup : ∀ c ∈ d, ¬UpperN c)
    (nvs : List Str) (w : Str) (hw : w ∈ extractSubdomains d nvs) :
    (∃ labs2, (∀ lab ∈ labs2, LabelShapeP lab) ∧ w = joinLabs labs2 d) ∧
    ('\n' ∉ w) ∧ normalizeMatch w = w ∧ keepCandidate d w = true := by
  rw [mem_extract_iff] at hw
  obtain ⟨hkeep, nv, hnv, entry, hentry, m, hm, hnorm⟩ := hw
  obtain ⟨hchain, pre, post, hsplit⟩ := findAll_sound d entry m hm
  obtain ⟨labs, t, hmjoin, hlabs, ht⟩ := chainShape_decomp d m hchain
  have htne : t ≠ [] := ciEqStr_ne_nil t d ht hd
  have hdhead : ∃ dc, d.head? = some dc := by
    cases d with
    | nil => exact absurd rfl hd
    | cons a l => exact ⟨a, rfl⟩
  have hdlast : ∃ dc, d.getLast? = some dc := by
    cases hgl : d.getLast? with
    | none => exact absurd (List.getLast?_eq_none_iff.mp hgl) hd
    | some a => exact ⟨a, rfl⟩
  obtain ⟨dch, hdch⟩ := hdhead
  obtain ⟨dcl, hdcl⟩ := hdlast
  have hthead : ∀ c, t.head? = some c → isWordChar c = true := by
    intro c hc
    have hlow := ciEqStr_head t d ht c dch hc hdch
    have e1 : isWordChar c = isWordChar (Char.toLower c) :=
      (isWordChar_toLower c).symm
    rw [e1, hlow, isWordChar_toLower]
    exact hfirst dch hdch
  have htlast : ∀ c, t.getLast? = some c → isWordChar c = true := by
    intro c hc
    have hlow := ciEqStr_getLast t d ht c dcl hc hdcl
    have e1 : isWordChar c = isWordChar (Char.toLower c) :=
      (isWordChar_toLower c).symm
    rw [e1, hlow, isWordChar_toLower]
    exact hlast dcl hdcl
  have hmhead : ∀ c, m.head? = some c → isWordChar c = true := by
    rw [hmjoin]
    exact joinLabs_head_word labs t hlabs hthead
  have hmlast : ∀ c, m.getLast? = some c → isWordChar c = true := by
    rw [hmjoin, joinLabs_getLast? labs t htne]
    exact htlast
  have htrim : trimSpace m = m :=
    trimSpace_eq_self m (fun c hc => isWordChar_not_space c (hmhead c hc))
      (fun c hc => isWordChar_not_space c (hmlast c hc))
  have htlow : t.map Char.toLower = d := by
    rw [ciEqStr_map_toLower t d ht, map_toLower_noUpper d hnoup]
  have hlabs2 : ∀ lab ∈ labs.map (List.map Char.toLower), LabelShapeP lab := by
    intro lab hlab
    rw [List.mem_map] at hlab
    obtain ⟨lab0, hlab0, rfl⟩ := hlab
    exact labelShapeP_map_toLower lab0 (hlabs lab0 hlab0)
  have hmlow : m.map Char.toLower = joinLabs (labs.map (List.map Char.toLower)) d := by
    rw [hmjoin, map_toLower_joinLabs, htlow]
  have hjoinhead : ∀ c, (joinLabs (labs.map (List.map Char.toLower)) d).head? =
      some c → isWordChar c = true :=
    joinLabs_head_word _ d hlabs2 hfirst
  have hwjoin : w = joinLabs (labs.map (List.map Char.toLower)) d := by
    rw [← hnorm]
    unfold normalizeMatch
    rw [htrim, hmlow]
    exact trimPrefixStar_eq_self _
      (fun c hc => isWordChar_ne_star c (hjoinhead c hc))
  refine ⟨⟨labs.map (List.map Char.toLower), hlabs2, hwjoin⟩, ?_, ?_, hkeep⟩
  · intro hnl
    rw [← hnorm] at hnl
    obtain ⟨c0, hc0, hceq⟩ := mem_normalizeMatch m '\n' hnl
    have hc0nl : c0 = '\n' := by
      by_contra hne2
      exact toLower_ne_newline c0 hne2 hceq.symm
    rw [hc0nl] at hc0
    have hinentry : ('\n' : Char) ∈ entry := by
      rw [hsplit, List.mem_append]
      exact Or.inr (List.mem_append.mpr (Or.inl hc0))
    exact splitOnChar_no_sep '\n' nv entry hentry '\n' hinentry rfl
  · have hwhead : ∀ c, w.head? = some c → isWordChar c = true := by
      rw [hwjoin]
      exact hjoinhead
    have hwlast : ∀ c, w.getLast? = some c → isWordChar c = true := by
      rw [hwjoin, joinLabs_getLast? _ d hd]
      exact hlast
    have htrimw : trimSpace w = w :=
      trimSpace_eq_self w (fun c hc => isWordChar_not_space c (hwhead c hc))
        (fun c hc => isWordChar_not_space c (hwlast c hc))
    have hwlow : w.map Char.toLower = w := by
      rw [hwjoin, map_toLower_joinLabs, map_toLower_noUpper d hnoup]
      have hlabsfix : (labs.map (List.map Char.toLower)).map (List.map Char.toLower) =
          labs.map (List.map Char.toLower) := by
        rw [List.map_map]
        apply List.map_congr_left
        intro lab0 hlab0
        show (lab0.map Char.toLower).map Char.toLower = lab0.map Char.toLower
        rw [List.map_map]
        exact List.map_congr_left (fun c hc => toLower_idem c)
      rw [hlabsfix]
    unfold normalizeMatch
    rw [htrimw, hwlow]
    refine trimPrefixStar_eq_self w (fun c hc => isWordChar_ne_star c ?_)
    rw [hwjoin] at hc
    exact hjoinhead c hc

/-- The extractor applied to the entries `["a-b"]` for target `"a-"` keeps
`"a-"` (the trailing word boundary is provided by the following `b`), but
re-extracting from `["a-"]` finds no match (no word boundary at the end of
input), so the extractor is not idempotent in general. -/
theorem extractor_idempotent_counterexample :
    extractSubdomains (str "a-") [str "a-b"] = [str "a-"] ∧
      extractSubdomains (str "a-")
        (extractSubdomains (str "a-") [str "a-b"]) = [] := by
  constructor
  · decide
  · decide

/-- C8 (amended): the extractor is idempotent provided the target domain
begins and ends with word characters (letters, digits or underscore): for
every such domain and every sequence of raw entries, feeding the output
back in as the raw entries yields the same result. -/
theorem extractor_idempotent (d : Str) (nvs : List Str)
    (hfirst2 : ∃ c, d.head? = some c ∧ isWordChar c = true)
    (hlast2 : ∃ c, d.getLast? = some c ∧ isWordChar c = true) :
    extractSubdomains d (extractSubdomains d nvs) = extractSubdomains d nvs := by
  obtain ⟨cf, hcf, hcfw⟩ := hfirst2
  obtain ⟨cl, hcl, hclw⟩ := hlast2
  have hd : d ≠ [] := by
    intro h
    subst h
    cases hcf
  have hfirst : ∀ c, d.head? = some c → isWordChar c = true := by
    intro c hc
    rw [hc] at hcf
    cases hcf
    exact hcfw
  have hlast : ∀ c, d.getLast? = some c → isWordChar c = true := by
    intro c hc
    rw [hc] at hcl
    cases hcl
    exact hclw
  by_cases hnoup : ∀ c ∈ d, ¬UpperN c
  · have key : ∀ w ∈ extractSubdomains d nvs,
        splitOnChar '\n' w = [w] ∧ findAll d w = [w] ∧
        normalizeMatch w = w ∧ keepCandidate d w = true := by
      intro w hw
      obtain ⟨⟨labs2, hlabs2, hwjoin⟩, hnl, hnormw, hkeepw⟩ :=
        output_structure d hfirst hlast hd hnoup nvs w hw
      have hwne : w ≠ [] := by
        rw [hwjoin]
        exact joinLabs_ne_nil labs2 d hd
      have hwhead : ∀ c, w.head? = some c → isWordChar c = true := by
        rw [hwjoin]
        exact joinLabs_head_word labs2 d hlabs2 hfirst
      refine ⟨splitOnChar_single '\n' w (fun c hc hceq => hnl (hceq ▸ hc)),
        ?_, hnormw, hkeepw⟩
      have hlow : LowChain d w := hwjoin ▸ lowChain_joinLabs d labs2 hlabs2
      exact findAll_single d hd w (matchTail_full d hd hlast w hlow none)
        hwne hwhead
    have e1 : (extractSubdomains d nvs).flatMap (splitOnChar '\n') =
        extractSubdomains d nvs :=
      flatMap_singleton_id _ _ (fun w hw => (key w hw).1)
    have e2 : (extractSubdomains d nvs).flatMap (findAll d) =
        extractSubdomains d nvs :=
      flatMap_singleton_id _ _ (fun w hw => (key w hw).2.1)
    have e3 : (extractSubdomains d nvs).map normalizeMatch =
        extractSubdomains d nvs := by
      rw [List.map_congr_left (fun w hw => (key w hw).2.2.1)]
      exact List.map_id _
    have e4 : (extractSubdomains d nvs).filter (keepCandidate d) =
        extractSubdomains d nvs :=
      List.filter_eq_self.mpr (fun w hw => (key w hw).2.2.2)
    have hRchain : List.Chain' ltB (extractSubdomains d nvs) := by
      rw [extractSubdomains_def]
      exact sortDedup_chain _
    rw [extractSubdomains_def d (extractSubdomains d nvs)]
    rw [e1, e2, e3, e4]
    exact chain_ext (sortDedup (extractSubdomains d nvs))
      (extractSubdomains d nvs) (sortDedup_chain _) hRchain
      (fun v => mem_sortDedup v _)
  · have hup : ∃ c ∈ d, UpperN c := by
      by_contra hno
      push_neg at hno
      exact hnoup hno
    obtain ⟨cu, hcu, hcuup⟩ := hup
    have hR : extractSubdomains d nvs = [] := by
      rw [List.eq_nil_iff_forall_not_mem]
      intro w hw
      rw [mem_extract_iff] at hw
      obtain ⟨hkeep, nv, hnv, entry, hentry, m, hm, hnorm⟩ := hw
      unfold keepCandidate at hkeep
      rw [Bool.and_eq_true] at hkeep
      have hcw : cu ∈ w := containsStr_mem w d hkeep.2 cu hcu
      rw [← hnorm] at hcw
      obtain ⟨c0, hc0, hceq⟩ := mem_normalizeMatch m cu hcw
      exact toLower_not_upper c0 (hceq ▸ hcuup)
    rw [hR]
    rfl

/-- Witness for `extractor_idempotent` at domain `a.com` and a concrete
entry list. -/
theorem extractor_idempotent_witness :
    extractSubdomains (str "a.com")
        (extractSubdomains (str "a.com") [str "x.a.com\n*.Y.a.com"]) =
      extractSubdomains (str "a.com") [str "x.a.com\n*.Y.a.com"] :=
  extractor_idempotent (str "a.com") [str "x.a.com\n*.Y.a.com"]
    ⟨'a', by decide, by decide⟩ ⟨'m', by decide, by decide⟩

end SubHunter
